import Mathlib

/-
Verification development for the card_logic draw-poker robot code.

The definitions below are a shallow embedding of the Python sources:
  card_logic/poker/card.py            (card data model)
  card_logic/poker/hand_evaluator.py  (HandEvaluator.evaluate, _check_straight)
  card_logic/poker/strategy.py        (PokerStrategy.get_cards_to_discard,
                                       _find_straight_draw)
  card_logic/poker/robot_actions.py   (generate_fill_actions,
                                       generate_swap_actions, parse_action,
                                       get_poker_actions, count_swaps)

Python cards are pairs (rank, suit) with rank 2..14 and suit one of the four
symbols H, D, C, S.  Lists model Python lists; Except models raised
exceptions; Option models values that may be None.  Counter iteration is
modelled through List.dedup of the underlying list (for the descending-sorted
rank list fed to Counter by the evaluator, this preserves the iteration
order; everywhere else the extracted key is unique so iteration order is
irrelevant).  Python string primitives (str.strip, str.lower, str.split,
int(...)) are embedded as structurally recursive char-list functions so that
every definition evaluates inside the kernel.
-/

/-- The four card suits of card.py (SUITS = H, D, C, S). -/
inductive Suit where
  | H
  | D
  | C
  | S
deriving DecidableEq, Repr

/-- A card is a (rank, suit) pair, as in card.py. -/
abbrev Card := Nat × Suit

/-- Hand rank constant HIGH_CARD of hand_evaluator.py. -/
def HIGH_CARD : Nat := 0

/-- Hand rank constant ONE_PAIR of hand_evaluator.py. -/
def ONE_PAIR : Nat := 1

/-- Hand rank constant TWO_PAIR of hand_evaluator.py. -/
def TWO_PAIR : Nat := 2

/-- Hand rank constant THREE_OF_A_KIND of hand_evaluator.py. -/
def THREE_OF_A_KIND : Nat := 3

/-- Hand rank constant STRAIGHT of hand_evaluator.py. -/
def STRAIGHT : Nat := 4

/-- Hand rank constant FLUSH of hand_evaluator.py. -/
def FLUSH : Nat := 5

/-- Hand rank constant FULL_HOUSE of hand_evaluator.py. -/
def FULL_HOUSE : Nat := 6

/-- Hand rank constant FOUR_OF_A_KIND of hand_evaluator.py. -/
def FOUR_OF_A_KIND : Nat := 7

/-- Hand rank constant STRAIGHT_FLUSH of hand_evaluator.py. -/
def STRAIGHT_FLUSH : Nat := 8

/-- Hand rank constant ROYAL_FLUSH of hand_evaluator.py. -/
def ROYAL_FLUSH : Nat := 9

/-- Python sorted(l, reverse=True) on a list of ints. -/
def sortDescNat (l : List Nat) : List Nat :=
  List.insertionSort (· ≥ ·) l

/-- The items of Python Counter(l): each distinct value of l paired with its
multiplicity.  List.dedup keeps one occurrence of each distinct value in
list order, so for the sorted rank list used by the evaluator the item order
agrees with Counter insertion order. -/
def counterItems (l : List Nat) : List (Nat × Nat) :=
  l.dedup.map (fun r => (r, l.count r))

/-- HandEvaluator._check_straight: sorted_ranks = sorted(set(ranks),
reverse=True); a straight needs 5 distinct ranks and either a span of 4 from
highest to lowest, or the wheel [14, 5, 4, 3, 2] which is a 5-high
straight. -/
def checkStraight (ranks : List Nat) : Bool × Nat :=
  let sortedRanks := sortDescNat ranks.dedup
  if sortedRanks.length ≠ 5 then (false, 0)
  else if sortedRanks.headD 0 - sortedRanks.getD 4 0 = 4 then
    (true, sortedRanks.headD 0)
  else if sortedRanks = [14, 5, 4, 3, 2] then (true, 5)
  else (false, 0)

/-- The body of HandEvaluator.evaluate after the cardinality check, expressed
as a function of the descending-sorted rank list and of len(set(suits)).
The cascade of returns is the exact branch order of the Python code. -/
def evalFromRanks (ranks : List Nat) (numSuits : Nat) : Nat × List Nat × String :=
  let rcItems := counterItems ranks
  let rcValues := rcItems.map Prod.snd
  let isFlush := numSuits == 1
  let st := checkStraight ranks
  let isStraight := st.1
  let straightHigh := st.2
  if isFlush && isStraight && (straightHigh == 14) then
    (ROYAL_FLUSH, [14], "Royal Flush")
  else if isFlush && isStraight then
    (STRAIGHT_FLUSH, [straightHigh], "Straight Flush")
  else if rcValues.contains 4 then
    let quadRank := ((rcItems.filter (fun rc => rc.2 == 4)).map Prod.fst).headD 0
    let kicker := ((rcItems.filter (fun rc => rc.2 == 1)).map Prod.fst).headD 0
    (FOUR_OF_A_KIND, [quadRank, kicker], "Four of a Kind")
  else if rcValues.contains 3 && rcValues.contains 2 then
    let tripRank := ((rcItems.filter (fun rc => rc.2 == 3)).map Prod.fst).headD 0
    let pairRank := ((rcItems.filter (fun rc => rc.2 == 2)).map Prod.fst).headD 0
    (FULL_HOUSE, [tripRank, pairRank], "Full House")
  else if isFlush then (FLUSH, ranks, "Flush")
  else if isStraight then (STRAIGHT, [straightHigh], "Straight")
  else if rcValues.contains 3 then
    let tripRank := ((rcItems.filter (fun rc => rc.2 == 3)).map Prod.fst).headD 0
    let kickers := sortDescNat ((rcItems.filter (fun rc => rc.2 == 1)).map Prod.fst)
    (THREE_OF_A_KIND, tripRank :: kickers, "Three of a Kind")
  else
    let pairs := (rcItems.filter (fun rc => rc.2 == 2)).map Prod.fst
    if pairs.length = 2 then
      let sortedPairs := sortDescNat pairs
      let kicker := ((rcItems.filter (fun rc => rc.2 == 1)).map Prod.fst).headD 0
      (TWO_PAIR, sortedPairs ++ [kicker], "Two Pair")
    else if pairs.length = 1 then
      let pairRank := pairs.headD 0
      let kickers := sortDescNat ((rcItems.filter (fun rc => rc.2 == 1)).map Prod.fst)
      (ONE_PAIR, pairRank :: kickers, "One Pair")
    else (HIGH_CARD, ranks, "High Card")

/-- HandEvaluator.evaluate on a hand that has already passed the cardinality
check: ranks sorted descending, suits inspected only through set(suits). -/
def evaluateCards (hand : List Card) : Nat × List Nat × String :=
  evalFromRanks (sortDescNat (hand.map Prod.fst)) (hand.map Prod.snd).dedup.length

/-- Errors a call into the Python code can raise: the explicit
ValueError of the evaluator cardinality check (the InvalidHand error of the
spec), and the TypeError obtained by subscripting None. -/
inductive EvalErr where
  | invalidHand
  | typeError
deriving DecidableEq, Repr

/-- HandEvaluator.evaluate: raises ValueError unless the hand has exactly 5
entries, then classifies the hand. -/
def evaluate (hand : List Card) : Except EvalErr (Nat × List Nat × String) :=
  if hand.length ≠ 5 then .error .invalidHand else .ok (evaluateCards hand)

/-- Extracts the cards of a slot list, or none when some slot is empty. -/
def stripSlots : List (Option Card) → Option (List Card)
  | [] => some []
  | none :: _ => none
  | some c :: rest => (stripSlots rest).map (fun cs => c :: cs)

/-- HandEvaluator.evaluate called on a hand that may hold None slots, as the
dynamically typed Python permits.  The code checks only the cardinality; when
a None slot is present, the subsequent c[0] subscription raises a TypeError,
not the ValueError of the explicit check. -/
def evaluateSlots (hand : List (Option Card)) :
    Except EvalErr (Nat × List Nat × String) :=
  if hand.length ≠ 5 then .error .invalidHand
  else
    match stripSlots hand with
    | none => .error .typeError
    | some cards => .ok (evaluateCards cards)

/-- MAX_SWAP_PER_ROUND of strategy.py. -/
def MAX_SWAP_PER_ROUND : Nat := 3

/-- PokerStrategy.KEEP_THRESHOLD.get(mode, STRAIGHT): the keep threshold of
the three named modes, with STRAIGHT as the default for any other string. -/
def keepThreshold (mode : String) : Nat :=
  if mode = "conservative" then FULL_HOUSE
  else if mode = "standard" then STRAIGHT
  else if mode = "aggressive" then FOUR_OF_A_KIND
  else STRAIGHT

/-- The positions (0-indexed) of the cards of the hand satisfying p;
Python: [i for i, card in enumerate(hand) if p(card)]. -/
def idxWhere (hand : List Card) (p : Card → Bool) : List Nat :=
  (hand.enum.filter (fun ic => p ic.2)).map Prod.fst

/-- The (effective rank, position) list of PokerStrategy._find_straight_draw:
every card contributes (rank, position); every Ace additionally contributes
(1, position); the result is sorted by rank (Python list.sort is stable, as
is insertionSort). -/
def ranksWithPos (hand : List Card) : List (Nat × Nat) :=
  let base := hand.enum.map (fun ic => (ic.2.1, ic.1))
  let aceAdds := (hand.enum.filter (fun ic => ic.2.1 == 14)).map (fun ic => (1, ic.1))
  List.insertionSort (fun a b => a.1 ≤ b.1) (base ++ aceAdds)

/-- The window test of _find_straight_draw: the effective rank of the entry
lies in the 5 consecutive ranks base..base+4. -/
def inWindow (base : Nat) (rp : Nat × Nat) : Bool :=
  base ≤ rp.1 && rp.1 ≤ base + 4

/-- The candidate-collection loop of _find_straight_draw for one window
base: walk the sorted (rank, position) list, keeping entries whose rank lies
in [base, base + 4] whose position was not already kept. -/
def collectCandidates (base : Nat) :
    List (Nat × Nat) → List (Nat × Nat) → List (Nat × Nat)
  | acc, [] => acc
  | acc, rp :: rest =>
      if inWindow base rp && !((acc.map Prod.snd).contains rp.2) then
        collectCandidates base (acc ++ [rp]) rest
      else collectCandidates base acc rest

/-- One iteration of the window scan of _find_straight_draw: if the
candidates of the window starting at base cover at least 4 distinct ranks,
and the first 4 candidates sit at 4 distinct positions, those positions are
kept; otherwise the scan continues. -/
def straightDrawAt (rwp : List (Nat × Nat)) (base : Nat) : Option (List Nat) :=
  let candidates := collectCandidates base [] rwp
  if 4 ≤ ((candidates.map Prod.fst).dedup).length then
    let keepPositions := ((candidates.take 4).map Prod.snd).dedup
    if keepPositions.length = 4 then some keepPositions else none
  else none

/-- PokerStrategy._find_straight_draw: scan window bases in ascending rank
order (the ranks of the sorted list itself) and return the positions kept by
the first qualifying window, if any. -/
def findStraightDraw (hand : List Card) : Option (List Nat) :=
  let rwp := ranksWithPos hand
  rwp.findSome? (fun rp => straightDrawAt rwp rp.1)

/-- The four-flush scan of the high-card branch: the first suit of the suit
counter holding exactly 4 cards determines the discarded off-suit positions;
with no such suit the loop leaves the discard list empty. -/
def flushDrawDiscards (hand : List Card) : List Nat :=
  match (hand.map Prod.snd).dedup.findSome? (fun s =>
      if (hand.map Prod.snd).count s == 4 then
        some (idxWhere hand (fun c => c.2 ≠ s))
      else none) with
  | some d => d
  | none => []

/-- The no-draw fallback of the high-card branch: pair each position with
its rank, sort ascending by rank, and discard the first 3 positions. -/
def lowestThreeDiscards (hand : List Card) : List Nat :=
  let indexedRanks :=
    List.insertionSort (fun x y => x.2 ≤ y.2) (hand.enum.map (fun ic => (ic.1, ic.2.1)))
  (indexedRanks.take 3).map Prod.fst

/-- The high-card branch of PokerStrategy.get_cards_to_discard: try a
four-flush draw, then a straight draw, then fall back to discarding the 3
lowest-ranked positions (positions sorted by ascending card rank). -/
def highCardDiscards (hand : List Card) : List Nat :=
  let d1 := flushDrawDiscards hand
  let d2 :=
    if d1.isEmpty then
      match findStraightDraw hand with
      | some keep => (List.range 5).filter (fun i => !(keep.contains i))
      | none => []
    else d1
  if d2.isEmpty then lowestThreeDiscards hand else d2

/-- PokerStrategy.get_cards_to_discard: evaluate, keep made hands at or
above the mode threshold, otherwise branch on the hand category; the final
result is truncated to MAX_SWAP_PER_ROUND positions.  The evaluator
exception propagates. -/
def getCardsToDiscard (mode : String) (hand : List Card) : Except EvalErr (List Nat) :=
  match evaluate hand with
  | .error e => .error e
  | .ok (handRank, _, _) =>
    if keepThreshold mode ≤ handRank then .ok []
    else if handRank = FOUR_OF_A_KIND then .ok []
    else if handRank = FULL_HOUSE then .ok []
    else if handRank = FLUSH then .ok []
    else if handRank = STRAIGHT then .ok []
    else
      let ranks := hand.map Prod.fst
      let discardPositions :=
        if handRank = THREE_OF_A_KIND then
          let tripRank := (ranks.dedup.filter (fun r => ranks.count r == 3)).headD 0
          idxWhere hand (fun c => c.1 ≠ tripRank)
        else if handRank = TWO_PAIR then
          let pairRanks := ranks.dedup.filter (fun r => ranks.count r == 2)
          idxWhere hand (fun c => !(pairRanks.contains c.1))
        else if handRank = ONE_PAIR then
          let pairRank := (ranks.dedup.filter (fun r => ranks.count r == 2)).headD 0
          idxWhere hand (fun c => c.1 ≠ pairRank)
        else highCardDiscards hand
      .ok (discardPositions.take MAX_SWAP_PER_ROUND)

/-- generate_fill_actions of robot_actions.py: for each None slot, in
position order, emit the 4 fill commands with the 1-indexed holder
position. -/
def generateFillActions (hand : List (Option Card)) : List String :=
  hand.enum.flatMap (fun ic =>
    match ic.2 with
    | none =>
        ["take deck", "default position",
         "place at " ++ toString (ic.1 + 1), "default position"]
    | some _ => [])

/-- The 8 command strings generate_swap_actions emits for one discarded
0-indexed position. -/
def swapBlock (pos : Nat) : List String :=
  ["take card " ++ toString (pos + 1), "default position",
   "drop holding", "default position",
   "take deck", "default position",
   "place at " ++ toString (pos + 1), "default position"]

/-- generate_swap_actions of robot_actions.py: ask the strategy for the
discard positions and emit one swap block per position, in the order the
strategy returned them.  The evaluator exception propagates. -/
def generateSwapActions (mode : String) (hand : List Card) : Except EvalErr (List String) :=
  match getCardsToDiscard mode hand with
  | .error e => .error e
  | .ok discardPositions =>
    if discardPositions.isEmpty then .ok []
    else .ok (discardPositions.flatMap swapBlock)

/-- get_poker_actions of robot_actions.py: if any slot is empty, return the
fill actions immediately; otherwise run the swap generation on the full
hand.  The stripSlots fallback models the dynamic typing: with no empty
position it always succeeds. -/
def getPokerActions (mode : String) (hand : List (Option Card)) : Except EvalErr (List String) :=
  let emptyPositions := (hand.enum.filter (fun ic => ic.2.isNone)).map Prod.fst
  if !emptyPositions.isEmpty then .ok (generateFillActions hand)
  else
    match stripSlots hand with
    | none => .error .typeError
    | some cards => generateSwapActions mode cards

/-- Python chr case mapping restricted to ASCII upper-case letters, as
str.lower applies it to the command strings. -/
def lowerChar (c : Char) : Char :=
  if 'A' ≤ c ∧ c ≤ 'Z' then Char.ofNat (c.toNat + 32) else c

/-- Python str.lower over the underlying characters. -/
def lowerString (s : String) : String := ⟨s.data.map lowerChar⟩

/-- Python chr case mapping restricted to ASCII lower-case letters, used to
state the upper-case half of the parser round trip. -/
def upperChar (c : Char) : Char :=
  if 'a' ≤ c ∧ c ≤ 'z' then Char.ofNat (c.toNat - 32) else c

/-- Python str.upper over the underlying characters. -/
def upperString (s : String) : String := ⟨s.data.map upperChar⟩

/-- Python str.strip: drop the space characters at both ends. -/
def trimChars (cs : List Char) : List Char :=
  ((cs.dropWhile (· = ' ')).reverse.dropWhile (· = ' ')).reverse

/-- Python str.strip wrapped on String. -/
def stripString (s : String) : String := ⟨trimChars s.data⟩

/-- Helper of splitWords: accumulate the current word (reversed) while
scanning; space characters close the current word. -/
def wordsAux : List Char → List Char → List String
  | [], acc => if acc.isEmpty then [] else [⟨acc.reverse⟩]
  | c :: rest, acc =>
      if c = ' ' then
        if acc.isEmpty then wordsAux rest [] else ⟨acc.reverse⟩ :: wordsAux rest []
      else wordsAux rest (c :: acc)

/-- Python str.split() with no separator: split on space runs, dropping
empty words. -/
def splitWords (s : String) : List String := wordsAux s.data []

/-- Char-list test that p is an initial segment of the first list. -/
def startsWithChars : List Char → List Char → Bool
  | _, [] => true
  | [], _ :: _ => false
  | c :: cs, p :: ps => c == p && startsWithChars cs ps

/-- Python str.startswith. -/
def strStartsWith (s p : String) : Bool := startsWithChars s.data p.data

/-- Python int(s) on a digit string, none on anything else. -/
def digitsToNat? (cs : List Char) : Option Nat :=
  if cs.isEmpty then none
  else cs.foldl (fun acc? c => acc?.bind (fun acc =>
    if '0' ≤ c ∧ c ≤ '9' then some (acc * 10 + (c.toNat - 48)) else none)) (some 0)

/-- Python int on String. -/
def strToNat? (s : String) : Option Nat := digitsToNat? s.data

/-- The command vocabulary of robot_actions.py, as a tagged variant: the
dict parse_action returns carries exactly a type tag and, for take_card and
place, a position. -/
inductive Command where
  | takeCard (pos : Nat)
  | defaultPosition
  | dropHolding
  | takeDeck
  | placeAt (pos : Nat)
deriving DecidableEq, Repr

/-- The exact text form each command variant is emitted with by
robot_actions.py (f-strings for the positional commands, literal strings
otherwise). -/
def formatCommand : Command → String
  | .takeCard pos => "take card " ++ toString pos
  | .defaultPosition => "default position"
  | .dropHolding => "drop holding"
  | .takeDeck => "take deck"
  | .placeAt pos => "place at " ++ toString pos

/-- parse_action of robot_actions.py: strip and lower-case the text, match
the three fixed commands, then the two positional forms by their leading
words, taking the final word as the position; anything else raises
ValueError (modelled as none). -/
def parseAction (action : String) : Option Command :=
  let a := lowerString (stripString action)
  if a = "default position" then some .defaultPosition
  else if a = "drop holding" then some .dropHolding
  else if a = "take deck" then some .takeDeck
  else if strStartsWith a "take card " then
    match strToNat? ((splitWords a).getLastD "") with
    | some p => some (.takeCard p)
    | none => none
  else if strStartsWith a "place at " then
    match strToNat? ((splitWords a).getLastD "") with
    | some p => some (.placeAt p)
    | none => none
  else none

/-- count_swaps of robot_actions.py: the number of take card commands of an
action list. -/
def countSwaps (actions : List String) : Nat :=
  (actions.filter (fun a => strStartsWith a "take card ")).length

/-- The full command vocabulary of the external interface table: take card N
and place at N for N in 1..5, and the three fixed commands. -/
def commandVocabulary : List Command :=
  [.takeCard 1, .takeCard 2, .takeCard 3, .takeCard 4, .takeCard 5,
   .defaultPosition, .dropHolding, .takeDeck,
   .placeAt 1, .placeAt 2, .placeAt 3, .placeAt 4, .placeAt 5]

/-- The 4 fill commands emitted for one empty 0-indexed position. -/
def fillBlock (pos : Nat) : List String :=
  ["take deck", "default position",
   "place at " ++ toString (pos + 1), "default position"]

/-- The 0-indexed positions of the empty slots of a hand, in ascending
order. -/
def emptySlotPositions (hand : List (Option Card)) : List Nat :=
  (hand.enum.filter (fun ic => ic.2.isNone)).map Prod.fst

/-- Straight-draw window scan as the spec words it: collect the positions
whose effective rank falls in the window of the 5 consecutive ranks
base..base+4; when the distinct ranks covered reach 4, keep those
positions.  This is the specification-side counterpart of straightDrawAt,
which instead keeps the positions of the first 4 collected candidates. -/
def specWindowKeep (rwp : List (Nat × Nat)) (base : Nat) : Option (List Nat) :=
  let collected := rwp.filter (inWindow base)
  if 4 ≤ ((collected.map Prod.fst).dedup).length then
    some ((collected.map Prod.snd).dedup)
  else none

/-- Straight-draw detection as the spec words it: the positions kept by the
first qualifying window, windows scanned in ascending base-rank order over
the effective ranks present.  Specification-side counterpart of
findStraightDraw. -/
def specStraightDraw (hand : List Card) : Option (List Nat) :=
  let rwp := ranksWithPos hand
  rwp.findSome? (fun rp => specWindowKeep rwp rp.1)

deriving instance DecidableEq for Except

instance : IsTotal Nat (· ≥ ·) := ⟨fun a b => le_total b a⟩

instance : IsTrans Nat (· ≥ ·) := ⟨fun _ _ _ h1 h2 => le_trans h2 h1⟩

instance : IsAntisymm Nat (· ≥ ·) := ⟨fun _ _ h1 h2 => le_antisymm h2 h1⟩

instance : IsTotal (Nat × Nat) (fun a b => a.1 ≤ b.1) := ⟨fun a b => le_total a.1 b.1⟩

instance : IsTrans (Nat × Nat) (fun a b => a.1 ≤ b.1) := ⟨fun _ _ _ h1 h2 => le_trans h1 h2⟩

instance : IsTotal (Nat × Nat) (fun a b => a.2 ≤ b.2) := ⟨fun a b => le_total a.2 b.2⟩

instance : IsTrans (Nat × Nat) (fun a b => a.2 ≤ b.2) := ⟨fun _ _ _ h1 h2 => le_trans h1 h2⟩

/-- The index list of any enum-filter-map construction is a sublist of the
index range of the list. -/
theorem enumIdx_sublist_range {α : Type} (l : List α) (q : Nat × α → Bool) :
    ((l.enum.filter q).map Prod.fst).Sublist (List.range l.length) := by
  have h2 := List.Sublist.map Prod.fst (List.filter_sublist (p := q) l.enum)
  rwa [List.enum_map_fst] at h2

/-- stripSlots returns none exactly when some slot is empty. -/
theorem stripSlots_eq_none_iff (l : List (Option Card)) :
    stripSlots l = none ↔ none ∈ l := by
  induction l with
  | nil => simp [stripSlots]
  | cons hd tl ih => cases hd <;> simp [stripSlots, ih]

/-- On a length-5 hand the evaluator never raises. -/
theorem evaluate_of_length (hand : List Card) (h5 : hand.length = 5) :
    evaluate hand = Except.ok (evaluateCards hand) := by
  simp [evaluate, h5]

/-- C9: for every command of the vocabulary (take card N, default position,
drop holding, take deck, place at N, with N in 1..5), parsing the formatted
text form returns exactly that command, both for the lowercase rendering and
for the uppercase rendering. -/
theorem parse_format_round_trip :
    ∀ c ∈ commandVocabulary,
      parseAction (formatCommand c) = some c ∧
      parseAction (upperString (formatCommand c)) = some c := by
  decide

theorem parse_format_round_trip_witness :
    Command.takeCard 3 ∈ commandVocabulary ∧
    parseAction (formatCommand (Command.takeCard 3)) = some (Command.takeCard 3) ∧
    parseAction (upperString (formatCommand (Command.takeCard 3))) =
      some (Command.takeCard 3) :=
  ⟨by decide, parse_format_round_trip (Command.takeCard 3) (by decide)⟩

/-- C10: a mode string outside the three named modes is accepted without
error; the threshold dictionary lookup falls back to STRAIGHT, so the
strategy behaves exactly as mode standard on every hand. -/
theorem unknown_mode_defaults_to_standard (mode : String)
    (hm : mode ≠ "conservative" ∧ mode ≠ "standard" ∧ mode ≠ "aggressive") :
    keepThreshold mode = STRAIGHT ∧
    ∀ hand : List Card, getCardsToDiscard mode hand = getCardsToDiscard "standard" hand := by
  have h1 : keepThreshold mode = STRAIGHT := by
    unfold keepThreshold
    rw [if_neg hm.1, if_neg hm.2.1, if_neg hm.2.2]
  have h2 : keepThreshold "standard" = STRAIGHT := by decide
  exact ⟨h1, fun hand => by simp only [getCardsToDiscard, h1, h2]⟩

theorem unknown_mode_defaults_to_standard_witness :
    keepThreshold "agressive" = STRAIGHT ∧
    getCardsToDiscard "agressive" [(2, Suit.H), (8, Suit.D), (5, Suit.C), (9, Suit.S), (13, Suit.H)] =
      getCardsToDiscard "standard" [(2, Suit.H), (8, Suit.D), (5, Suit.C), (9, Suit.S), (13, Suit.H)] := by
  have h := unknown_mode_defaults_to_standard "agressive" ⟨by decide, by decide, by decide⟩
  exact ⟨h.1, h.2 _⟩

/-- C5 counterexample: a 5-entry hand with an Empty slot does not produce
the InvalidHand (ValueError) failure the claim requires for it; the
cardinality check passes and the None subscription raises a TypeError
instead, so the left-to-right direction of the claimed equivalence fails at
this input. -/
theorem evaluate_empty_slot_counterexample :
    ¬ (evaluateSlots [some (3, Suit.H), some (7, Suit.D), some (9, Suit.C), some (11, Suit.S), none]
        = Except.error EvalErr.invalidHand ↔
       (([some (3, Suit.H), some (7, Suit.D), some (9, Suit.C), some (11, Suit.S), none]
          : List (Option Card)).length ≠ 5 ∨
        none ∈ [some (3, Suit.H), some (7, Suit.D), some (9, Suit.C), some (11, Suit.S), none])) := by
  decide

/-- C5 amended: the evaluator raises the explicit InvalidHand (ValueError)
failure exactly on wrong cardinality; it fails (with InvalidHand or with the
TypeError of an Empty slot) exactly when the input is not a complete 5-card
hand; on every complete 5-card hand it returns a result without error. -/
theorem evaluateSlots_error_characterization (hand : List (Option Card)) :
    (evaluateSlots hand = Except.error EvalErr.invalidHand ↔ hand.length ≠ 5) ∧
    ((∃ e, evaluateSlots hand = Except.error e) ↔ (hand.length ≠ 5 ∨ none ∈ hand)) ∧
    (hand.length = 5 → none ∉ hand → ∃ res, evaluateSlots hand = Except.ok res) := by
  by_cases h5 : hand.length = 5
  · cases hstrip : stripSlots hand with
    | none =>
        have hmem : none ∈ hand := (stripSlots_eq_none_iff hand).mp hstrip
        refine ⟨?_, ?_, ?_⟩
        · simp [evaluateSlots, h5, hstrip]
        · simp [evaluateSlots, h5, hstrip, hmem]
        · intro _ hno
          exact absurd hmem hno
    | some cards =>
        have hmem : none ∉ hand := by
          intro hc
          rw [← stripSlots_eq_none_iff hand] at hc
          rw [hstrip] at hc
          exact Option.noConfusion hc
        refine ⟨?_, ?_, ?_⟩
        · simp [evaluateSlots, h5, hstrip]
        · simp [evaluateSlots, h5, hstrip, hmem]
        · intro _ _
          exact ⟨evaluateCards cards, by simp [evaluateSlots, h5, hstrip]⟩
  · refine ⟨?_, ?_, ?_⟩
    · simp [evaluateSlots, h5]
    · simp [evaluateSlots, h5]
    · intro hc
      exact absurd hc h5

theorem evaluateSlots_error_characterization_witness :
    ∃ res, evaluateSlots [some (3, Suit.H), some (7, Suit.D), some (9, Suit.C),
      some (11, Suit.S), some (13, Suit.H)] = Except.ok res :=
  (evaluateSlots_error_characterization _).2.2 (by decide) (by decide)

/-- C4 counterexample: on the high-card hand (3H, 2D, 9C, 4S, 13H) the
strategy returns the positions [1, 0, 3] ordered by ascending card rank, not
by ascending position, and the emitted command list is not the ascending
concatenation of swap blocks over 0, 1, 3 that the claim requires. -/
theorem swap_actions_ascending_counterexample :
    getCardsToDiscard "standard"
      [(3, Suit.H), (2, Suit.D), (9, Suit.C), (4, Suit.S), (13, Suit.H)] =
      Except.ok [1, 0, 3] ∧
    generateSwapActions "standard"
      [(3, Suit.H), (2, Suit.D), (9, Suit.C), (4, Suit.S), (13, Suit.H)] ≠
      Except.ok (List.flatMap [0, 1, 3] swapBlock) := by
  constructor
  · decide
  · decide

/-- C4 amended: for every fully-occupied 5-card hand and mode the emitted
command list is the concatenation, over the discarded positions in the order
the strategy produced them (ascending position order except in the no-draw
high-card branch, which orders positions by ascending card rank), of the
8-command block take card, default, drop holding, default, take deck,
default, place at, default, with the replacement placed at the 1-indexed
slot the discard was taken from; an empty discard decision yields an empty
command list. -/
theorem swap_actions_structure (mode : String) (hand : List Card) (l : List Nat)
    (hl : getCardsToDiscard mode hand = Except.ok l) :
    generateSwapActions mode hand = Except.ok (l.flatMap (fun pos =>
      ["take card " ++ toString (pos + 1), "default position",
       "drop holding", "default position",
       "take deck", "default position",
       "place at " ++ toString (pos + 1), "default position"])) := by
  unfold generateSwapActions
  rw [hl]
  cases l <;> rfl

theorem swap_actions_structure_witness :
    generateSwapActions "standard" [(10, Suit.H), (10, Suit.D), (5, Suit.C), (3, Suit.S), (7, Suit.H)] =
      Except.ok (List.flatMap [2, 3, 4] (fun pos =>
        ["take card " ++ toString (pos + 1), "default position",
         "drop holding", "default position",
         "take deck", "default position",
         "place at " ++ toString (pos + 1), "default position"])) :=
  swap_actions_structure "standard" _ [2, 3, 4] (by decide)

/-- The fill loop is the concatenation of fill blocks over the empty
positions. -/
theorem generateFillActions_eq (hand : List (Option Card)) :
    generateFillActions hand = (emptySlotPositions hand).flatMap fillBlock := by
  unfold generateFillActions emptySlotPositions
  generalize hand.enum = l
  induction l with
  | nil => rfl
  | cons ic rest ih =>
      rcases ic with ⟨i, oc⟩
      cases oc <;> simp [ih, fillBlock]

/-- Membership of the empty-position list is emptiness of the slot. -/
theorem mem_emptySlotPositions {hand : List (Option Card)} {i : Nat} :
    i ∈ emptySlotPositions hand ↔ hand[i]? = some none := by
  unfold emptySlotPositions
  simp only [List.mem_map, List.mem_filter]
  constructor
  · rintro ⟨⟨j, oc⟩, ⟨hmem, hnone⟩, rfl⟩
    have := List.mem_enum_iff_getElem?.mp hmem
    simp only at this hnone ⊢
    rwa [Option.isNone_iff_eq_none.mp hnone] at this
  · intro h
    exact ⟨(i, none), ⟨List.mem_enum_iff_getElem?.mpr h, rfl⟩, rfl⟩

/-- C6: a 5-slot hand with at least one empty slot produces exactly the fill
sequences, one 4-command block per empty position in ascending order with
1-indexed slots, the discard strategy is never run so no take card command
appears, and the concrete two-empties example produces exactly the 8
commands for positions 2 and 4. -/
theorem fill_actions_for_empty_slots (mode : String) (hand : List (Option Card))
    (h5 : hand.length = 5) (hne : none ∈ hand) :
    getPokerActions mode hand = Except.ok ((emptySlotPositions hand).flatMap fillBlock) ∧
    List.Sorted (· < ·) (emptySlotPositions hand) ∧
    (∀ i, i ∈ emptySlotPositions hand ↔ hand[i]? = some none) ∧
    countSwaps ((emptySlotPositions hand).flatMap fillBlock) = 0 ∧
    getPokerActions mode [some (10, Suit.H), none, some (5, Suit.C), none, some (7, Suit.H)] =
      Except.ok ["take deck", "default position", "place at 2", "default position",
                 "take deck", "default position", "place at 4", "default position"] := by
  have hsub : (emptySlotPositions hand).Sublist (List.range 5) := by
    have := enumIdx_sublist_range hand (fun ic => ic.2.isNone)
    rwa [h5] at this
  have hlt : ∀ i ∈ emptySlotPositions hand, i < 5 := by
    intro i hi
    exact List.mem_range.mp (hsub.subset hi)
  have hnonempty : emptySlotPositions hand ≠ [] := by
    obtain ⟨j, hj⟩ := List.mem_iff_getElem?.mp hne
    exact List.ne_nil_of_mem (mem_emptySlotPositions.mpr hj)
  refine ⟨?_, ?_, fun i => mem_emptySlotPositions, ?_, ?_⟩
  · unfold getPokerActions
    have hEP : (hand.enum.filter (fun ic => ic.2.isNone)).map Prod.fst =
        emptySlotPositions hand := rfl
    rw [hEP]
    rw [if_pos (by simpa [List.isEmpty_iff] using hnonempty)]
    rw [generateFillActions_eq]
  · exact List.Pairwise.sublist hsub (List.sorted_lt_range 5)
  · rw [countSwaps, List.length_eq_zero, List.filter_eq_nil_iff]
    intro a ha
    obtain ⟨p, hp, hap⟩ := List.mem_flatMap.mp ha
    have hp5 : p < 5 := hlt p hp
    simp only [fillBlock, List.mem_cons, List.not_mem_nil, or_false] at hap
    rcases hap with rfl | rfl | rfl | rfl
    · decide
    · decide
    · interval_cases p <;> decide
    · decide
  · rfl

/-- C1: for every valid 5-card hand and mode, a hand whose category reaches
the keep threshold of the mode is left intact, and any hand of category
Straight or better is left intact under every mode. -/
theorem made_hands_never_discarded (mode : String) (hand : List Card)
    (h5 : hand.length = 5) (r : Nat) (t : List Nat) (nm : String)
    (he : evaluate hand = Except.ok (r, t, nm))
    (hr : keepThreshold mode ≤ r ∨ (STRAIGHT ≤ r ∧ r ≤ ROYAL_FLUSH)) :
    getCardsToDiscard mode hand = Except.ok [] := by
  have hthr : keepThreshold mode = FULL_HOUSE ∨ keepThreshold mode = STRAIGHT ∨
      keepThreshold mode = FOUR_OF_A_KIND := by
    unfold keepThreshold
    split_ifs <;> simp
  unfold getCardsToDiscard
  rw [he]
  by_cases hk : keepThreshold mode ≤ r
  · simp [hk]
  · have h4 : STRAIGHT ≤ r ∧ r ≤ ROYAL_FLUSH := hr.resolve_left hk
    have hlow : 4 ≤ r := h4.1
    have hr7 : r < 7 := by
      rcases hthr with h | h | h <;> rw [h] at hk <;>
        simp [FULL_HOUSE, STRAIGHT, FOUR_OF_A_KIND] at hk <;> omega
    interval_cases r <;>
      simp [hk, FOUR_OF_A_KIND, FULL_HOUSE, FLUSH, STRAIGHT]

theorem made_hands_never_discarded_witness :
    getCardsToDiscard "aggressive"
      [(2, Suit.H), (3, Suit.H), (4, Suit.H), (5, Suit.H), (9, Suit.H)] = Except.ok [] :=
  made_hands_never_discarded "aggressive" _ (by decide) FLUSH [9, 5, 4, 3, 2] "Flush"
    (by decide) (Or.inr (by decide))

/-- Descending sort is a function of the multiset of entries. -/
theorem sortDescNat_perm_eq {l1 l2 : List Nat} (h : l1.Perm l2) :
    sortDescNat l1 = sortDescNat l2 :=
  List.eq_of_perm_of_sorted
    ((List.perm_insertionSort _ l1).trans (h.trans (List.perm_insertionSort _ l2).symm))
    (List.sorted_insertionSort _ l1) (List.sorted_insertionSort _ l2)

/-- Every branch of the evaluator returns a category at most 9. -/
theorem evalFromRanks_fst_le_nine (ranks : List Nat) (numSuits : Nat) :
    (evalFromRanks ranks numSuits).1 ≤ 9 := by
  unfold evalFromRanks
  dsimp only
  split_ifs <;>
    simp [HIGH_CARD, ONE_PAIR, TWO_PAIR, THREE_OF_A_KIND, STRAIGHT, FLUSH,
      FULL_HOUSE, FOUR_OF_A_KIND, STRAIGHT_FLUSH, ROYAL_FLUSH]

/-- C8: evaluation is invariant under permutation of the 5 cards (category,
tiebreak sequence and display name all agree), and the assigned category is
one of the 10 values 0..9. -/
theorem evaluate_permutation_invariant (h1 h2 : List Card) (hp : h1.Perm h2) :
    evaluate h1 = evaluate h2 ∧
    (∀ r t nm, evaluate h1 = Except.ok (r, t, nm) → r ≤ 9) := by
  have hranks : sortDescNat (h1.map Prod.fst) = sortDescNat (h2.map Prod.fst) :=
    sortDescNat_perm_eq (hp.map Prod.fst)
  have hsuits : (h1.map Prod.snd).dedup.length = (h2.map Prod.snd).dedup.length :=
    ((hp.map Prod.snd).dedup).length_eq
  have hev : evaluateCards h1 = evaluateCards h2 := by
    unfold evaluateCards
    rw [hranks, hsuits]
  constructor
  · unfold evaluate
    rw [hp.length_eq, hev]
  · intro r t nm he
    by_cases h5 : h1.length = 5
    · rw [evaluate_of_length h1 h5, Except.ok.injEq] at he
      have h9 := evalFromRanks_fst_le_nine (sortDescNat (h1.map Prod.fst))
        (h1.map Prod.snd).dedup.length
      rw [show evalFromRanks (sortDescNat (h1.map Prod.fst)) (h1.map Prod.snd).dedup.length
        = evaluateCards h1 from rfl, he] at h9
      exact h9
    · simp [evaluate, h5] at he

theorem evaluate_permutation_invariant_witness :
    evaluate [(10, Suit.H), (5, Suit.C), (3, Suit.S), (10, Suit.D), (7, Suit.H)] =
      evaluate [(10, Suit.H), (10, Suit.D), (5, Suit.C), (3, Suit.S), (7, Suit.H)] ∧
    (1 : Nat) ≤ 9 :=
  ⟨(evaluate_permutation_invariant _ _ (by decide)).1,
   (evaluate_permutation_invariant
      [(10, Suit.H), (5, Suit.C), (3, Suit.S), (10, Suit.D), (7, Suit.H)]
      [(10, Suit.H), (10, Suit.D), (5, Suit.C), (3, Suit.S), (7, Suit.H)]
      (by decide)).2 1 [10, 7, 5, 3] "One Pair" (by decide)⟩

/-- Position filters over the hand are sublists of the index range. -/
theorem idxWhere_sublist (hand : List Card) (p : Card → Bool) :
    (idxWhere hand p).Sublist (List.range hand.length) :=
  enumIdx_sublist_range hand _

/-- The flush-draw scan either finds nothing or returns the off-suit
positions of a suit held exactly 4 times. -/
theorem flushDrawDiscards_cases (hand : List Card) :
    flushDrawDiscards hand = [] ∨
    ∃ s, (hand.map Prod.snd).count s = 4 ∧
      flushDrawDiscards hand = idxWhere hand (fun c => c.2 ≠ s) := by
  unfold flushDrawDiscards
  cases hfs : (hand.map Prod.snd).dedup.findSome? (fun s =>
      if (hand.map Prod.snd).count s == 4 then
        some (idxWhere hand (fun c => c.2 ≠ s))
      else none) with
  | none => exact Or.inl rfl
  | some d =>
      obtain ⟨s, _, hsd⟩ := List.exists_of_findSome?_eq_some hfs
      split at hsd
      next hcond =>
        rw [Option.some.injEq] at hsd
        exact Or.inr ⟨s, by simpa using hcond, hsd.symm⟩
      next => exact Option.noConfusion hsd

/-- The no-draw fallback discards exactly 3 pairwise distinct positions of
the 5-slot range. -/
theorem lowestThreeDiscards_good (hand : List Card) (h5 : hand.length = 5) :
    (lowestThreeDiscards hand).length = 3 ∧ (lowestThreeDiscards hand).Nodup ∧
      ∀ i ∈ lowestThreeDiscards hand, i < 5 := by
  unfold lowestThreeDiscards
  set P := hand.enum.map (fun ic => (ic.1, ic.2.1)) with hP
  set L := List.insertionSort (fun x y : Nat × Nat => x.2 ≤ y.2) P with hL
  have hPfst : P.map Prod.fst = List.range 5 := by
    rw [hP, List.map_map]
    have : (Prod.fst ∘ fun ic : Nat × Card => (ic.1, ic.2.1)) = Prod.fst := rfl
    rw [this, List.enum_map_fst, h5]
  have hperm : (L.map Prod.fst).Perm (List.range 5) := by
    rw [← hPfst]
    exact (List.perm_insertionSort _ P).map Prod.fst
  have hnodup : (L.map Prod.fst).Nodup := hperm.symm.nodup (List.nodup_range 5)
  have hlen : L.length = 5 := by
    have := (List.perm_insertionSort (fun x y : Nat × Nat => x.2 ≤ y.2) P).length_eq
    rw [this, hP, List.length_map, List.enum_length, h5]
  rw [List.map_take]
  refine ⟨?_, ?_, ?_⟩
  · rw [List.length_take, List.length_map, hlen]
    decide
  · exact (List.take_sublist 3 _).nodup hnodup
  · intro i hi
    exact List.mem_range.mp (hperm.subset ((List.take_sublist 3 _).subset hi))

/-- C7: on every valid 5-card hand and mode, the discard decision holds at
most 3 elements, its elements are pairwise distinct and all positions are
in the range 0..4. -/
theorem discard_decision_invariant (mode : String) (hand : List Card)
    (h5 : hand.length = 5) (l : List Nat)
    (hl : getCardsToDiscard mode hand = Except.ok l) :
    l.length ≤ 3 ∧ l.Nodup ∧ ∀ i ∈ l, i < 5 := by
  have hgood : ∀ D : List Nat, (D.Nodup ∧ ∀ i ∈ D, i < 5) →
      ((D.take MAX_SWAP_PER_ROUND).length ≤ 3 ∧ (D.take MAX_SWAP_PER_ROUND).Nodup ∧
        ∀ i ∈ D.take MAX_SWAP_PER_ROUND, i < 5) := by
    intro D hD
    refine ⟨?_, (List.take_sublist _ _).nodup hD.1,
      fun i hi => hD.2 i ((List.take_sublist _ _).subset hi)⟩
    rw [List.length_take]
    exact min_le_left _ _
  have hsub5 : ∀ (X : List Nat), X.Sublist (List.range 5) → X.Nodup ∧ ∀ i ∈ X, i < 5 :=
    fun X hX => ⟨hX.nodup (List.nodup_range 5), fun i hi => List.mem_range.mp (hX.subset hi)⟩
  have hidx : ∀ p : Card → Bool, (idxWhere hand p).Nodup ∧ ∀ i ∈ idxWhere hand p, i < 5 := by
    intro p
    exact hsub5 _ (h5 ▸ idxWhere_sublist hand p)
  have hone : ∀ (x y z : List Nat),
      (x.Nodup ∧ ∀ i ∈ x, i < 5) → (y.Nodup ∧ ∀ i ∈ y, i < 5) →
      (z.Nodup ∧ ∀ i ∈ z, i < 5) →
      (((if (if x.isEmpty then y else x).isEmpty then z
          else if x.isEmpty then y else x).Nodup) ∧
        ∀ i ∈ (if (if x.isEmpty then y else x).isEmpty then z
          else if x.isEmpty then y else x), i < 5) := by
    intro x y z hx hy hz
    split_ifs <;> first | exact hx | exact hy | exact hz
  have hP1 : (flushDrawDiscards hand).Nodup ∧ ∀ i ∈ flushDrawDiscards hand, i < 5 := by
    rcases flushDrawDiscards_cases hand with hfd | ⟨s, _, hfd⟩ <;> rw [hfd]
    · exact ⟨List.nodup_nil, by simp⟩
    · exact hidx _
  have hP3 := lowestThreeDiscards_good hand h5
  have hhc : (highCardDiscards hand).Nodup ∧ ∀ i ∈ highCardDiscards hand, i < 5 := by
    unfold highCardDiscards
    dsimp only
    cases hdraw : findStraightDraw hand with
    | none => exact hone _ _ _ hP1 ⟨List.nodup_nil, by simp⟩ ⟨hP3.2.1, hP3.2.2⟩
    | some keep =>
        exact hone _ _ _ hP1 (hsub5 _ (List.filter_sublist _)) ⟨hP3.2.1, hP3.2.2⟩
  unfold getCardsToDiscard at hl
  rw [evaluate_of_length hand h5] at hl
  dsimp only at hl
  split_ifs at hl <;> rw [Except.ok.injEq] at hl <;> subst hl
  · exact ⟨by simp, by simp, by simp⟩
  · exact ⟨by simp, by simp, by simp⟩
  · exact ⟨by simp, by simp, by simp⟩
  · exact ⟨by simp, by simp, by simp⟩
  · exact ⟨by simp, by simp, by simp⟩
  · exact hgood _ (hidx _)
  · exact hgood _ (hidx _)
  · exact hgood _ (hidx _)
  · exact hgood _ hhc

theorem discard_decision_invariant_witness :
    ([1, 0, 3] : List Nat).length ≤ 3 ∧ ([1, 0, 3] : List Nat).Nodup ∧
      ∀ i ∈ ([1, 0, 3] : List Nat), i < 5 :=
  discard_decision_invariant "standard"
    [(3, Suit.H), (2, Suit.D), (9, Suit.C), (4, Suit.S), (13, Suit.H)]
    (by decide) [1, 0, 3] (by decide)

/-- C6 witness helper is the concrete two-empties hand. -/
theorem fill_actions_for_empty_slots_witness :
    getPokerActions "standard"
      [some (10, Suit.H), none, some (5, Suit.C), none, some (7, Suit.H)] =
      Except.ok ((emptySlotPositions
        [some (10, Suit.H), none, some (5, Suit.C), none, some (7, Suit.H)]).flatMap fillBlock) :=
  (fill_actions_for_empty_slots "standard" _ (by decide) (by decide)).1

/-- A list of length 5 is a 5-element literal. -/
theorem eq_five_of_length {α : Type} {l : List α} (h : l.length = 5) :
    ∃ a b c d e, l = [a, b, c, d, e] := by
  rcases l with _ | ⟨a, _ | ⟨b, _ | ⟨c, _ | ⟨d, _ | ⟨e, _ | ⟨f, t⟩⟩⟩⟩⟩⟩
  · simp at h
  · simp at h
  · simp at h
  · simp at h
  · simp at h
  · exact ⟨a, b, c, d, e, rfl⟩
  · simp only [List.length_cons] at h
    omega

/-- For a 5-element duplicate-free list, the descending sorted set view is a
5-element descending chain holding the same members, with extreme members
bounding the list. -/
theorem sorted_dedup_five (R : List Nat) (h5R : R.length = 5) (hnd : R.Nodup) :
    ∃ a b c d e, sortDescNat R.dedup = [a, b, c, d, e] ∧
      e ≤ d ∧ d ≤ c ∧ c ≤ b ∧ b ≤ a ∧
      (∀ x, x ∈ ([a, b, c, d, e] : List Nat) ↔ x ∈ R) ∧
      (∀ x ∈ R, e ≤ x ∧ x ≤ a) ∧ a ∈ R ∧ e ∈ R := by
  rw [hnd.dedup]
  have hsperm : (sortDescNat R).Perm R := List.perm_insertionSort _ R
  have hsorted : List.Sorted (· ≥ ·) (sortDescNat R) := List.sorted_insertionSort _ R
  have hs5 : (sortDescNat R).length = 5 := hsperm.length_eq.trans h5R
  obtain ⟨a, b, c, d, e, hseq⟩ := eq_five_of_length hs5
  rw [hseq] at hsperm hsorted
  simp only [List.sorted_cons, List.mem_cons, List.not_mem_nil, or_false,
    List.sorted_nil, and_true, ge_iff_le] at hsorted
  obtain ⟨ha, hb, hc, hd⟩ := hsorted
  have hBA : b ≤ a := ha b (Or.inl rfl)
  have hCB : c ≤ b := hb c (Or.inl rfl)
  have hDC : d ≤ c := hc d (Or.inl rfl)
  have hED : e ≤ d := hd.1 e rfl
  have hmem : ∀ x, x ∈ ([a, b, c, d, e] : List Nat) ↔ x ∈ R :=
    fun x => hsperm.mem_iff
  refine ⟨a, b, c, d, e, hseq, hED, hDC, hCB, hBA, hmem, ?_, ?_, ?_⟩
  · intro x hx
    have hx5 := (hmem x).mpr hx
    simp only [List.mem_cons, List.not_mem_nil, or_false] at hx5
    rcases hx5 with rfl | rfl | rfl | rfl | rfl <;> omega
  · exact (hmem a).mp (by simp)
  · exact (hmem e).mp (by simp)

/-- Straight detection succeeds with high card a when the 5 ranks are
distinct and all lie between e and a with a span of 4. -/
theorem checkStraight_true_of_bounds (R : List Nat) (h5R : R.length = 5)
    (hnd : R.Nodup) (a e : Nat) (ha : a ∈ R) (he : e ∈ R)
    (hbound : ∀ x ∈ R, e ≤ x ∧ x ≤ a) (hspan : a - e = 4) :
    checkStraight R = (true, a) := by
  obtain ⟨A, B, C, D, E, hseq, hED, hDC, hCB, hBA, hmem, hbnd, hAmem, hEmem⟩ :=
    sorted_dedup_five R h5R hnd
  have hAa : A = a := le_antisymm (hbound A hAmem).2 (hbnd a ha).2
  have hEe : E = e := le_antisymm (hbnd e he).1 (hbound E hEmem).1
  unfold checkStraight
  rw [hseq, hAa, hEe]
  simp only [List.length_cons, List.length_nil, List.headD_cons,
    List.getD_cons_succ, List.getD_cons_zero]
  rw [if_neg (by omega), if_pos hspan]

/-- Straight detection reports the 5-high wheel whenever the distinct-rank
set is exactly the wheel set. -/
theorem checkStraight_wheel (R : List Nat)
    (hW : R.toFinset = ({14, 5, 4, 3, 2} : Finset Nat)) :
    checkStraight R = (true, 5) := by
  have h2 : R.toFinset = ([14, 5, 4, 3, 2] : List Nat).toFinset := by
    rw [hW]
    decide
  have hperm : R.dedup.Perm ([14, 5, 4, 3, 2] : List Nat) := by
    have h3 := List.toFinset_eq_iff_perm_dedup.mp h2
    have h4 : ([14, 5, 4, 3, 2] : List Nat).dedup = [14, 5, 4, 3, 2] := by decide
    rwa [h4] at h3
  have hs : sortDescNat R.dedup = [14, 5, 4, 3, 2] := by
    refine List.eq_of_perm_of_sorted ((List.perm_insertionSort _ _).trans hperm)
      (List.sorted_insertionSort _ _) (by decide)
  unfold checkStraight
  rw [hs]
  decide

/-- With a duplicated rank among the 5, straight detection fails. -/
theorem checkStraight_false_of_dup (R : List Nat) (h5R : R.length = 5)
    (hdup : ¬R.Nodup) : checkStraight R = (false, 0) := by
  have hlen : R.dedup.length ≠ 5 := by
    intro hc
    apply hdup
    have heq : R.dedup = R := (List.dedup_sublist R).eq_of_length (hc.trans h5R.symm)
    rw [← heq]
    exact List.nodup_dedup R
  unfold checkStraight sortDescNat
  rw [if_pos]
  rw [(List.perm_insertionSort _ _).length_eq]
  exact hlen

/-- With 5 distinct ranks, no span of 4 between the extremes, and no wheel
set, straight detection fails. -/
theorem checkStraight_false_of_nospan (R : List Nat) (h5R : R.length = 5)
    (hnd : R.Nodup) (hnw : R.toFinset ≠ ({14, 5, 4, 3, 2} : Finset Nat))
    (hnsp : ∀ a e, a ∈ R → e ∈ R → (∀ x ∈ R, e ≤ x ∧ x ≤ a) → a - e ≠ 4) :
    (checkStraight R).1 = false := by
  obtain ⟨A, B, C, D, E, hseq, hED, hDC, hCB, hBA, hmem, hbnd, hAmem, hEmem⟩ :=
    sorted_dedup_five R h5R hnd
  unfold checkStraight
  rw [hseq]
  simp only [List.length_cons, List.length_nil, List.headD_cons,
    List.getD_cons_succ, List.getD_cons_zero]
  rw [if_neg (by omega), if_neg (hnsp A E hAmem hEmem hbnd), if_neg]
  · intro hc
    apply hnw
    have hCfin : ([A, B, C, D, E] : List Nat).toFinset = R.toFinset := by
      apply Finset.ext
      intro x
      simp only [List.mem_toFinset]
      exact hmem x
    rw [← hCfin, hc]
    decide

/-- C2: for every 5-card hand, straight detection reports a straight exactly
when the 5 ranks are distinct with a max-min span of 4 (reporting the
maximum as high) or the distinct-rank set is the wheel 14,5,4,3,2
(reporting high 5); on the concrete wheel hand the evaluator returns
category Straight with tiebreak high 5. -/
theorem straight_detection_spec (hand : List Card) (h5 : hand.length = 5)
    (hne : (hand.map Prod.fst).toFinset.Nonempty) :
    (((hand.map Prod.fst).Nodup ∧
        (hand.map Prod.fst).toFinset.max' hne - (hand.map Prod.fst).toFinset.min' hne = 4) →
      checkStraight (hand.map Prod.fst) =
        (true, (hand.map Prod.fst).toFinset.max' hne)) ∧
    ((hand.map Prod.fst).toFinset = ({14, 5, 4, 3, 2} : Finset Nat) →
      checkStraight (hand.map Prod.fst) = (true, 5)) ∧
    (¬((hand.map Prod.fst).Nodup ∧
        (hand.map Prod.fst).toFinset.max' hne - (hand.map Prod.fst).toFinset.min' hne = 4) →
      (hand.map Prod.fst).toFinset ≠ ({14, 5, 4, 3, 2} : Finset Nat) →
      (checkStraight (hand.map Prod.fst)).1 = false) ∧
    evaluate [(14, Suit.H), (2, Suit.D), (3, Suit.C), (4, Suit.S), (5, Suit.H)] =
      Except.ok (STRAIGHT, [5], "Straight") := by
  have h5R : (hand.map Prod.fst).length = 5 := by rw [List.length_map, h5]
  set R := hand.map Prod.fst with hR
  refine ⟨?_, ?_, ?_, by decide⟩
  · rintro ⟨hnd, hspan⟩
    exact checkStraight_true_of_bounds R h5R hnd _ _
      (List.mem_toFinset.mp (R.toFinset.max'_mem hne))
      (List.mem_toFinset.mp (R.toFinset.min'_mem hne))
      (fun x hx => ⟨R.toFinset.min'_le x (List.mem_toFinset.mpr hx),
                    R.toFinset.le_max' x (List.mem_toFinset.mpr hx)⟩)
      hspan
  · exact checkStraight_wheel R
  · intro hn hw
    by_cases hnd : R.Nodup
    · refine checkStraight_false_of_nospan R h5R hnd hw ?_
      intro a e hamem hemem hbound hae
      apply hn
      refine ⟨hnd, ?_⟩
      have hAa : R.toFinset.max' hne = a := le_antisymm
        (Finset.max'_le _ _ _ (fun x hx => (hbound x (List.mem_toFinset.mp hx)).2))
        (Finset.le_max' _ a (List.mem_toFinset.mpr hamem))
      have hEe : R.toFinset.min' hne = e := le_antisymm
        (Finset.min'_le _ e (List.mem_toFinset.mpr hemem))
        (Finset.le_min' _ _ _ (fun x hx => (hbound x (List.mem_toFinset.mp hx)).1))
      rw [hAa, hEe]
      exact hae
    · rw [checkStraight_false_of_dup R h5R hnd]

theorem straight_detection_spec_witness :
    checkStraight ([(14, Suit.H), (2, Suit.D), (3, Suit.C), (4, Suit.S), (5, Suit.H)].map Prod.fst) =
      (true, 5) :=
  (straight_detection_spec [(14, Suit.H), (2, Suit.D), (3, Suit.C), (4, Suit.S), (5, Suit.H)]
    (by decide) (by decide)).2.1 (by decide)

/-- Straight detection only depends on the multiset of ranks. -/
theorem checkStraight_perm {l1 l2 : List Nat} (h : l1.Perm l2) :
    checkStraight l1 = checkStraight l2 := by
  unfold checkStraight
  rw [sortDescNat_perm_eq h.dedup]

/-- Counts of two different values cannot jointly exceed the length. -/
theorem count_pair_le {α : Type} [DecidableEq α] (l : List α) (a b : α)
    (hab : a ≠ b) : l.count a + l.count b ≤ l.length := by
  have hdec : (fun x => !(x == a)) = (fun x : α => decide ¬((x == a) = true)) := by
    funext x
    cases hx : x == a <;> simp [hx]
  have h1 : l.count a = List.countP (fun x => x == a) l := List.count_eq_countP a l
  have h2 : l.count b ≤ List.countP (fun x => !(x == a)) l := by
    rw [List.count_eq_countP]
    apply List.countP_mono_left
    intro x _ hx
    have hxb : x = b := by simpa using hx
    simp [hxb]
    intro hc
    exact hab hc.symm
  have h3 := List.length_eq_countP_add_countP (fun x => x == a) l
  rw [← hdec] at h3
  omega


/-- A findSome? scan whose function vanishes away from a listed element a
evaluates to its value at a. -/
theorem findSome?_eq_of_unique {α β : Type} (l : List α) (f : α → Option β) (a : α)
    (ha : a ∈ l) (hother : ∀ x ∈ l, x ≠ a → f x = none) :
    l.findSome? f = f a := by
  induction l with
  | nil => cases ha
  | cons hd tl ih =>
      rw [List.findSome?_cons]
      by_cases hhd : hd = a
      · subst hhd
        cases hfa : f hd with
        | some b => rfl
        | none =>
            have : ∀ x ∈ tl, f x = none := by
              intro x hx
              by_cases hxa : x = hd
              · rw [hxa, hfa]
              · exact hother x (List.mem_cons_of_mem _ hx) hxa
            rw [List.findSome?_eq_none.mpr this]
      · rw [hother hd (List.mem_cons_self _ _) hhd]
        have hatl : a ∈ tl := by
          rcases List.mem_cons.mp ha with h | h
          · exact absurd h.symm hhd
          · exact h
        exact ih hatl (fun x hx hxa => hother x (List.mem_cons_of_mem _ hx) hxa)

/-- findSome? only depends on the values of the function on the list. -/
theorem findSome?_congr {α β : Type} (l : List α) (f g : α → Option β)
    (h : ∀ x ∈ l, f x = g x) : l.findSome? f = l.findSome? g := by
  induction l with
  | nil => rfl
  | cons hd tl ih =>
      rw [List.findSome?_cons, List.findSome?_cons, h hd (List.mem_cons_self _ _),
        ih (fun x hx => h x (List.mem_cons_of_mem _ hx))]

/-- Two sublists of a duplicate-free list with the same members coincide. -/
theorem sublist_eq_of_mem_iff {α : Type} {u s t : List α}
    (hs : s.Sublist u) (ht : t.Sublist u) (hu : u.Nodup)
    (h : ∀ x, x ∈ s ↔ x ∈ t) : s = t := by
  induction u generalizing s t with
  | nil =>
      rw [List.sublist_nil.mp hs, List.sublist_nil.mp ht]
  | cons a u ih =>
      have hanu : a ∉ u := (List.nodup_cons.mp hu).1
      have hu2 : u.Nodup := (List.nodup_cons.mp hu).2
      rcases List.sublist_cons_iff.mp hs with hs2 | ⟨s2, rfl, hs2⟩ <;>
        rcases List.sublist_cons_iff.mp ht with ht2 | ⟨t2, rfl, ht2⟩
      · exact ih hs2 ht2 hu2 h
      · exact absurd (hs2.subset ((h a).mpr (List.mem_cons_self _ _))) hanu
      · exact absurd (ht2.subset ((h a).mp (List.mem_cons_self _ _))) hanu
      · have h2 : ∀ x, x ∈ s2 ↔ x ∈ t2 := by
          intro x
          by_cases hxa : x = a
          · subst hxa
            constructor
            · intro hx
              exact absurd (hs2.subset hx) hanu
            · intro hx
              exact absurd (ht2.subset hx) hanu
          · constructor
            · intro hx
              rcases List.mem_cons.mp ((h x).mp (List.mem_cons_of_mem _ hx)) with h3 | h3
              · exact absurd h3 hxa
              · exact h3
            · intro hx
              rcases List.mem_cons.mp ((h x).mpr (List.mem_cons_of_mem _ hx)) with h3 | h3
              · exact absurd h3 hxa
              · exact h3
        rw [ih hs2 ht2 hu2 h2]

/-- Membership of the enumerate-filter positions list. -/
theorem mem_idxWhere (hand : List Card) (p : Card → Bool) (d : Card) (i : Nat) :
    i ∈ idxWhere hand p ↔ i < hand.length ∧ p (hand.getD i d) = true := by
  unfold idxWhere
  simp only [List.mem_map, List.mem_filter]
  constructor
  · rintro ⟨⟨j, c⟩, ⟨hmem, hp⟩, rfl⟩
    obtain ⟨hlt, hc⟩ := List.mem_enum hmem
    dsimp only at hp hc ⊢
    refine ⟨hlt, ?_⟩
    rw [List.getD_eq_getElem _ _ hlt, ← hc]
    exact hp
  · rintro ⟨hlt, hp⟩
    refine ⟨(i, hand.getD i d), ⟨?_, hp⟩, rfl⟩
    rw [List.mem_enum_iff_getElem?]
    dsimp only
    rw [List.getD_eq_getElem _ _ hlt]
    exact List.getElem?_eq_getElem hlt

/-- The enumerate-filter positions list written as a range filter. -/
theorem idxWhere_eq_range_filter (hand : List Card) (p : Card → Bool) (d : Card) :
    idxWhere hand p = (List.range hand.length).filter (fun i => p (hand.getD i d)) := by
  refine sublist_eq_of_mem_iff (idxWhere_sublist hand p) (List.filter_sublist _)
    (List.nodup_range _) ?_
  intro i
  rw [mem_idxWhere hand p d i, List.mem_filter, List.mem_range]

/-- The number of positions kept equals the number of cards satisfying the
test. -/
theorem idxWhere_length (hand : List Card) (p : Card → Bool) :
    (idxWhere hand p).length = List.countP p hand := by
  unfold idxWhere
  rw [List.length_map, ← List.countP_eq_length_filter]
  conv_rhs => rw [← List.enum_map_snd hand, List.countP_map]
  rfl

set_option maxHeartbeats 1000000 in
/-- A hand the evaluator classifies as High Card has pairwise distinct ranks
and is not a straight.  Distinctness of the cards rules out the degenerate
5-equal-ranks case, which only 5 identical cards could produce. -/
theorem highcard_ranks_facts (hand : List Card) (h5 : hand.length = 5)
    (hnd : hand.Nodup) (t : List Nat) (nm : String)
    (hev : evaluateCards hand = (HIGH_CARD, t, nm)) :
    (hand.map Prod.fst).Nodup ∧ (checkStraight (hand.map Prod.fst)).1 = false := by
  set R := hand.map Prod.fst with hR
  set Rs := sortDescNat R with hRs
  have hperm : Rs.Perm R := List.perm_insertionSort _ R
  have hRs5 : Rs.length = 5 := by
    rw [hperm.length_eq, hR, List.length_map, h5]
  unfold evaluateCards at hev
  rw [← hR, ← hRs] at hev
  unfold evalFromRanks at hev
  dsimp only at hev
  split_ifs at hev with h1 h2 h3 h4 h5f h6 h7 h8 h9 <;>
    first
    | (simp [ROYAL_FLUSH, STRAIGHT_FLUSH, FOUR_OF_A_KIND, FULL_HOUSE, FLUSH,
        STRAIGHT, THREE_OF_A_KIND, TWO_PAIR, ONE_PAIR, HIGH_CARD] at hev)
    | skip
  rw [List.length_map] at h8 h9
  have hcount : ∀ x, Rs.count x ≤ 1 := by
    intro x
    by_contra hc
    push_neg at hc
    have hxmem : x ∈ Rs := List.count_pos_iff.mp (by omega)
    have hxd : x ∈ Rs.dedup := List.mem_dedup.mpr hxmem
    have hitem : (x, Rs.count x) ∈ counterItems Rs := by
      unfold counterItems
      exact List.mem_map.mpr ⟨x, hxd, rfl⟩
    have hval : Rs.count x ∈ (counterItems Rs).map Prod.snd :=
      List.mem_map.mpr ⟨(x, Rs.count x), hitem, rfl⟩
    have hle : Rs.count x ≤ 5 := hRs5 ▸ List.count_le_length x Rs
    rcases (by omega : Rs.count x = 2 ∨ Rs.count x = 3 ∨ Rs.count x = 4 ∨ Rs.count x = 5)
      with hk | hk | hk | hk
    · have hxP2 : (x, Rs.count x) ∈ (counterItems Rs).filter (fun rc => rc.2 == 2) :=
        List.mem_filter.mpr ⟨hitem, by rw [hk]; rfl⟩
      have hsum5 : ((counterItems Rs).map Prod.snd).sum = 5 := by
        unfold counterItems
        rw [List.map_map]
        have hcomp : (Prod.snd ∘ fun r => (r, Rs.count r)) = fun r => List.count r Rs := rfl
        rw [hcomp, List.sum_map_count_dedup_eq_length, hRs5]
      set P2 := (counterItems Rs).filter (fun rc => rc.2 == 2) with hP2
      have hall2 : ∀ b ∈ P2.map Prod.snd, b = 2 := by
        intro b hb
        obtain ⟨rc, hrc, rfl⟩ := List.mem_map.mp hb
        have := (List.mem_filter.mp hrc).2
        simpa using this
      have hrepl : P2.map Prod.snd = List.replicate (P2.map Prod.snd).length 2 :=
        List.eq_replicate_of_mem hall2
      have hsumP2 : (P2.map Prod.snd).sum = (P2.map Prod.snd).length * 2 := by
        rw [hrepl, List.sum_replicate, smul_eq_mul]
        rw [List.length_replicate]
      have hsub : (P2.map Prod.snd).Sublist ((counterItems Rs).map Prod.snd) :=
        List.Sublist.map Prod.snd (List.filter_sublist _)
      have hsumle : (P2.map Prod.snd).sum ≤ ((counterItems Rs).map Prod.snd).sum :=
        hsub.sum_le_sum (fun a _ => Nat.zero_le a)
      have hlen2 : P2.length ≤ 2 := by
        rw [List.length_map] at hsumP2
        omega
      have hlen0 : P2.length = 0 := by
        rcases Nat.lt_or_ge P2.length 1 with h | h
        · omega
        · rcases Nat.lt_or_ge P2.length 2 with h2 | h2
          · omega
          · omega
      exact absurd (List.length_eq_zero.mp hlen0 ▸ hxP2) (List.not_mem_nil _)
    · rw [hk] at hval
      exact h7 (List.elem_iff.mpr hval)
    · rw [hk] at hval
      exact h3 (List.elem_iff.mpr hval)
    · have hall : ∀ b ∈ Rs, x = b := List.count_eq_length.mp (hk.trans hRs5.symm)
      have hallhand : ∀ c ∈ hand, c.1 = x := by
        intro c hc
        have : c.1 ∈ Rs := hperm.mem_iff.mpr (List.mem_map.mpr ⟨c, hc, rfl⟩)
        exact (hall c.1 this).symm
      have hsnodup : (hand.map Prod.snd).Nodup := by
        refine List.Nodup.map_on ?_ hnd
        intro c1 hc1 c2 hc2 hsnd
        have h1' := hallhand c1 hc1
        have h2' := hallhand c2 hc2
        exact Prod.ext_iff.mpr ⟨h1'.trans h2'.symm, hsnd⟩
      have hcard : (hand.map Prod.snd).toFinset.card = 5 := by
        rw [List.toFinset_card_of_nodup hsnodup, List.length_map, h5]
      have hsubS : (hand.map Prod.snd).toFinset ⊆
          ({Suit.H, Suit.D, Suit.C, Suit.S} : Finset Suit) := by
        intro s _
        cases s <;> decide
      have := Finset.card_le_card hsubS
      rw [hcard] at this
      have hcard4 : ({Suit.H, Suit.D, Suit.C, Suit.S} : Finset Suit).card = 4 := by decide
      omega
  constructor
  · rw [List.nodup_iff_count_le_one]
    intro a
    rw [← hperm.count_eq a]
    exact hcount a
  · have hfalse : (checkStraight Rs).1 = false := by
      cases hcs : (checkStraight Rs).1
      · rfl
      · exact absurd hcs h6
    rw [checkStraight_perm hperm.symm]
    exact hfalse

/-- Boolean membership on Nat lists coincides with membership. -/
theorem contains_eq_true_iff {l : List Nat} {a : Nat} :
    l.contains a = true ↔ a ∈ l := List.elem_iff

/-- Every entry of the effective-rank list sits at a real position and holds
either the rank of the card there, or rank 1 for an Ace there. -/
theorem ranksWithPos_mem (hand : List Card) (d : Card) (rp : Nat × Nat)
    (h : rp ∈ ranksWithPos hand) :
    rp.2 < hand.length ∧
    (rp.1 = (hand.getD rp.2 d).1 ∨ (rp.1 = 1 ∧ (hand.getD rp.2 d).1 = 14)) := by
  unfold ranksWithPos at h
  rw [(List.perm_insertionSort _ _).mem_iff, List.mem_append] at h
  rcases h with h | h
  · obtain ⟨⟨i, c⟩, hic, hiceq⟩ := List.mem_map.mp h
    obtain ⟨hlt, hc⟩ := List.mem_enum hic
    dsimp only at hiceq hc
    rw [← hiceq]
    dsimp only
    refine ⟨hlt, Or.inl ?_⟩
    rw [List.getD_eq_getElem _ _ hlt, ← hc]
  · obtain ⟨⟨i, c⟩, hic, hiceq⟩ := List.mem_map.mp h
    have hic2 := List.mem_filter.mp hic
    obtain ⟨hlt, hc⟩ := List.mem_enum hic2.1
    have h14 : c.1 = 14 := by simpa using hic2.2
    dsimp only at hiceq hc
    rw [← hiceq]
    dsimp only
    refine ⟨hlt, Or.inr ⟨rfl, ?_⟩⟩
    rw [List.getD_eq_getElem _ _ hlt, ← hc]
    exact h14

/-- Inside any single 5-rank window, the collected positions are pairwise
distinct: an Ace position could only repeat if both 1 and 14 fell in the
same window, which no window allows. -/
theorem window_filter_pos_nodup (hand : List Card) (base : Nat) :
    (((ranksWithPos hand).filter (inWindow base)).map Prod.snd).Nodup := by
  set B := hand.enum.map (fun ic => (ic.2.1, ic.1)) with hB
  set A := (hand.enum.filter (fun ic => ic.2.1 == 14)).map (fun ic => (1, ic.1)) with hA
  have hperm : (ranksWithPos hand).Perm (B ++ A) := by
    unfold ranksWithPos
    exact List.perm_insertionSort _ _
  have hpermF : (((ranksWithPos hand).filter (inWindow base)).map Prod.snd).Perm
      (((B ++ A).filter (inWindow base)).map Prod.snd) := (hperm.filter _).map _
  refine (hpermF.symm).nodup ?_
  rw [List.filter_append, List.map_append, List.nodup_append]
  have hBsnd : B.map Prod.snd = List.range hand.length := by
    rw [hB, List.map_map]
    have hcm : (Prod.snd ∘ fun ic : Nat × Card => (ic.2.1, ic.1)) = Prod.fst := rfl
    rw [hcm, List.enum_map_fst]
  refine ⟨?_, ?_, ?_⟩
  · have hsub : ((B.filter (inWindow base)).map Prod.snd).Sublist (B.map Prod.snd) :=
      List.Sublist.map _ (List.filter_sublist _)
    rw [hBsnd] at hsub
    exact hsub.nodup (List.nodup_range _)
  · have hsub : ((A.filter (inWindow base)).map Prod.snd).Sublist (A.map Prod.snd) :=
      List.Sublist.map _ (List.filter_sublist _)
    have hAsnd : A.map Prod.snd =
        (hand.enum.filter (fun ic => ic.2.1 == 14)).map Prod.fst := by
      rw [hA, List.map_map]
      rfl
    rw [hAsnd] at hsub
    exact (hsub.trans (enumIdx_sublist_range hand _)).nodup (List.nodup_range _)
  · intro p hpB hpA
    obtain ⟨rpB, hrpB, hsndB⟩ := List.mem_map.mp hpB
    obtain ⟨rpA, hrpA, hsndA⟩ := List.mem_map.mp hpA
    have hrpB2 := List.mem_filter.mp hrpB
    have hrpA2 := List.mem_filter.mp hrpA
    obtain ⟨⟨iB, cB⟩, hicB, hicBeq⟩ := List.mem_map.mp hrpB2.1
    obtain ⟨⟨iA, cA⟩, hicA, hicAeq⟩ := List.mem_map.mp hrpA2.1
    have hicA2 := List.mem_filter.mp hicA
    obtain ⟨hltB, hcB⟩ := List.mem_enum hicB
    obtain ⟨hltA, hcA⟩ := List.mem_enum hicA2.1
    have h14 : cA.1 = 14 := by simpa using hicA2.2
    dsimp only at hicBeq hicAeq hcB hcA
    have hiB : iB = p := by
      rw [← hicBeq] at hsndB
      exact hsndB
    have hiA : iA = p := by
      rw [← hicAeq] at hsndA
      exact hsndA
    subst hiB
    subst hiA
    have hcBA : cB = cA := by
      rw [hcB, hcA]
    have hrankB : rpB.1 = 14 := by
      rw [← hicBeq]
      dsimp only
      rw [hcBA]
      exact h14
    have hrankA : rpA.1 = 1 := by
      rw [← hicAeq]
    have hwB := hrpB2.2
    have hwA := hrpA2.2
    unfold inWindow at hwB hwA
    rw [hrankB] at hwB
    rw [hrankA] at hwA
    simp only [Bool.and_eq_true, decide_eq_true_eq] at hwB hwA
    omega

/-- With pairwise distinct positions in the window, the dedup-by-position
candidate loop collects exactly the window filter. -/
theorem collectCandidates_eq_filter (base : Nat) (l acc : List (Nat × Nat))
    (h : (acc.map Prod.snd ++ (l.filter (inWindow base)).map Prod.snd).Nodup) :
    collectCandidates base acc l = acc ++ l.filter (inWindow base) := by
  induction l generalizing acc with
  | nil =>
      unfold collectCandidates
      rw [List.filter_nil, List.append_nil]
  | cons rp rest ih =>
      by_cases hw : inWindow base rp = true
      · rw [List.filter_cons_of_pos hw] at h ⊢
        have hnotin : rp.2 ∉ acc.map Prod.snd := by
          intro hc
          rw [List.map_cons, List.nodup_append] at h
          exact h.2.2 hc (List.mem_cons_self _ _)
        have hcc : (acc.map Prod.snd).contains rp.2 = false := by
          cases hcc2 : (acc.map Prod.snd).contains rp.2
          · rfl
          · exact absurd (contains_eq_true_iff.mp hcc2) hnotin
        have hcond : (inWindow base rp && !((acc.map Prod.snd).contains rp.2)) = true := by
          rw [hw, hcc]
          rfl
        unfold collectCandidates
        rw [if_pos hcond]
        have hre : (( acc ++ [rp]).map Prod.snd ++ (rest.filter (inWindow base)).map Prod.snd)
            = acc.map Prod.snd ++ (rp :: rest.filter (inWindow base)).map Prod.snd := by
          rw [List.map_append, List.map_cons, List.append_assoc]
          rfl
        have h2 : ((acc ++ [rp]).map Prod.snd ++
            (rest.filter (inWindow base)).map Prod.snd).Nodup := by
          rw [hre]
          exact h
        rw [ih (acc ++ [rp]) h2, List.append_assoc]
        rfl
      · rw [List.filter_cons_of_neg hw] at h ⊢
        have hcond : ¬((inWindow base rp && !((acc.map Prod.snd).contains rp.2)) = true) := by
          rw [Bool.and_eq_true]
          intro hc
          exact hw hc.1
        unfold collectCandidates
        rw [if_neg hcond]
        exact ih acc h

set_option maxHeartbeats 1000000 in
/-- Crux of the straight-draw analysis: on a 5-card hand with distinct
ranks in 2..14 that is not a straight, no 5-rank window can hold 5
collected entries — that would force the effective ranks to fill the whole
window, making the hand a straight or a wheel. -/
theorem window_candidates_le_four (hand : List Card) (h5 : hand.length = 5)
    (hndR : (hand.map Prod.fst).Nodup)
    (hvalid : ∀ c ∈ hand, 2 ≤ c.1 ∧ c.1 ≤ 14)
    (hns : (checkStraight (hand.map Prod.fst)).1 = false)
    (base : Nat) :
    ((ranksWithPos hand).filter (inWindow base)).length ≤ 4 := by
  by_contra hcon
  push_neg at hcon
  set C := (ranksWithPos hand).filter (inWindow base) with hC
  set d : Card := (2, Suit.H) with hdd
  have hposN : (C.map Prod.snd).Nodup := window_filter_pos_nodup hand base
  have hmemC : ∀ rp ∈ C, rp ∈ ranksWithPos hand ∧ inWindow base rp = true :=
    fun rp h => List.mem_filter.mp h
  have hCfacts : ∀ rp ∈ C, rp.2 < 5 ∧
      (rp.1 = (hand.getD rp.2 d).1 ∨ (rp.1 = 1 ∧ (hand.getD rp.2 d).1 = 14)) := by
    intro rp hrp
    have := ranksWithPos_mem hand d rp (hmemC rp hrp).1
    rwa [h5] at this
  have hgetmem : ∀ p, p < 5 → hand.getD p d ∈ hand := by
    intro p hp
    rw [List.getD_eq_getElem _ _ (by omega : p < hand.length)]
    exact List.getElem_mem _
  have hrank_inj : ∀ p q, p < 5 → q < 5 → p ≠ q →
      (hand.getD p d).1 ≠ (hand.getD q d).1 := by
    intro p q hp hq hpq heq
    apply hpq
    have hp2 : p < hand.length := by omega
    have hq2 : q < hand.length := by omega
    rw [List.getD_eq_getElem _ _ hp2, List.getD_eq_getElem _ _ hq2] at heq
    have hpm : p < (hand.map Prod.fst).length := by
      rw [List.length_map]
      exact hp2
    have hqm : q < (hand.map Prod.fst).length := by
      rw [List.length_map]
      exact hq2
    have hmapeq : (hand.map Prod.fst)[p] = (hand.map Prod.fst)[q] := by
      rw [List.getElem_map, List.getElem_map]
      exact heq
    exact (hndR.getElem_inj_iff).mp hmapeq
  have hCnodup : C.Nodup := List.Nodup.of_map _ hposN
  have hfstN : (C.map Prod.fst).Nodup := by
    refine List.Nodup.map_on ?_ hCnodup
    intro rp hrp rq hrq hfst
    by_contra hne
    have hpos : rp.2 ≠ rq.2 := by
      intro hp2
      exact hne (Prod.ext_iff.mpr ⟨hfst, hp2⟩)
    obtain ⟨hplt, hpr⟩ := hCfacts rp hrp
    obtain ⟨hqlt, hqr⟩ := hCfacts rq hrq
    rcases hpr with hpr | ⟨hpr1, hpr14⟩ <;> rcases hqr with hqr | ⟨hqr1, hqr14⟩
    · exact hrank_inj _ _ hplt hqlt hpos (by rw [← hpr, ← hqr, hfst])
    · have hveq : (hand.getD rp.2 d).1 = 1 := by
        rw [← hpr, hfst, hqr1]
      have hv := hvalid _ (hgetmem _ hplt)
      omega
    · have hveq : (hand.getD rq.2 d).1 = 1 := by
        rw [← hqr, ← hfst, hpr1]
      have hv := hvalid _ (hgetmem _ hqlt)
      omega
    · exact hrank_inj _ _ hplt hqlt hpos (by rw [hpr14, hqr14])
  have hlen5 : C.length = 5 := by
    have hle5 : C.length ≤ 5 := by
      have hcard : (C.map Prod.snd).toFinset.card = C.length := by
        rw [List.toFinset_card_of_nodup hposN, List.length_map]
      have hsub : (C.map Prod.snd).toFinset ⊆ Finset.range 5 := by
        intro i hi
        rw [List.mem_toFinset] at hi
        obtain ⟨rp, hrp, rfl⟩ := List.mem_map.mp hi
        rw [Finset.mem_range]
        exact (hCfacts rp hrp).1
      have := Finset.card_le_card hsub
      rw [Finset.card_range] at this
      omega
    omega
  have hfstlen : (C.map Prod.fst).length = 5 := by
    rw [List.length_map, hlen5]
  have hfstsub : (C.map Prod.fst).toFinset ⊆ Finset.Icc base (base + 4) := by
    intro r hr
    rw [List.mem_toFinset] at hr
    obtain ⟨rp, hrp, rfl⟩ := List.mem_map.mp hr
    have hw := (hmemC rp hrp).2
    unfold inWindow at hw
    simp only [Bool.and_eq_true, decide_eq_true_eq] at hw
    rw [Finset.mem_Icc]
    exact hw
  have hSeq : (C.map Prod.fst).toFinset = Finset.Icc base (base + 4) := by
    refine Finset.eq_of_subset_of_card_le hfstsub ?_
    rw [List.toFinset_card_of_nodup hfstN, hfstlen, Nat.card_Icc]
    omega
  have hwitness : ∀ r, base ≤ r → r ≤ base + 4 → ∃ rp ∈ C, rp.1 = r := by
    intro r h1 h2
    have hrmem : r ∈ (C.map Prod.fst).toFinset := by
      rw [hSeq, Finset.mem_Icc]
      exact ⟨h1, h2⟩
    rw [List.mem_toFinset] at hrmem
    obtain ⟨rp, hrp, hr⟩ := List.mem_map.mp hrmem
    exact ⟨rp, hrp, hr⟩
  set R := hand.map Prod.fst with hR
  have hR5 : R.length = 5 := by
    rw [hR, List.length_map, h5]
  have heff1 : ∀ rp ∈ C, 1 ≤ rp.1 := by
    intro rp hrp
    obtain ⟨hlt, hfacts⟩ := hCfacts rp hrp
    have hv := hvalid _ (hgetmem _ hlt)
    rcases hfacts with h | ⟨h, _⟩ <;> omega
  have hactual : ∀ rp ∈ C, 2 ≤ rp.1 → rp.1 ∈ R := by
    intro rp hrp h2
    obtain ⟨hlt, hfacts⟩ := hCfacts rp hrp
    rcases hfacts with h | ⟨h1, _⟩
    · rw [h, hR]
      exact List.mem_map.mpr ⟨hand.getD rp.2 d, hgetmem _ hlt, rfl⟩
    · omega
  have hcardR : R.toFinset.card = 5 := by
    rw [List.toFinset_card_of_nodup hndR, hR5]
  have hbasepos : 1 ≤ base := by
    obtain ⟨rp, hrp, hr⟩ := hwitness base (le_refl _) (by omega)
    have := heff1 rp hrp
    omega
  by_cases hb1 : base = 1
  · subst hb1
    have h14mem : (14 : Nat) ∈ R := by
      obtain ⟨rp, hrp, hr⟩ := hwitness 1 (le_refl _) (by omega)
      obtain ⟨hlt, hfacts⟩ := hCfacts rp hrp
      rcases hfacts with h | ⟨h1, h14⟩
      · have hv := hvalid _ (hgetmem _ hlt)
        omega
      · rw [hR]
        exact List.mem_map.mpr ⟨hand.getD rp.2 d, hgetmem _ hlt, h14⟩
    have h2345 : ∀ r, 2 ≤ r → r ≤ 5 → r ∈ R := by
      intro r hr1 hr2
      obtain ⟨rp, hrp, hr⟩ := hwitness r (by omega) (by omega)
      have := hactual rp hrp (by omega)
      rwa [hr] at this
    have hsub2 : ({14, 5, 4, 3, 2} : Finset Nat) ⊆ R.toFinset := by
      intro r hr
      rw [List.mem_toFinset]
      simp only [Finset.mem_insert, Finset.mem_singleton] at hr
      rcases hr with rfl | rfl | rfl | rfl | rfl
      · exact h14mem
      · exact h2345 5 (by omega) (by omega)
      · exact h2345 4 (by omega) (by omega)
      · exact h2345 3 (by omega) (by omega)
      · exact h2345 2 (by omega) (by omega)
    have hWeq : R.toFinset = ({14, 5, 4, 3, 2} : Finset Nat) := by
      refine (Finset.eq_of_subset_of_card_le hsub2 ?_).symm
      rw [hcardR]
      decide
    rw [checkStraight_wheel R hWeq] at hns
    simp at hns
  · have hb2 : 2 ≤ base := by omega
    have hRsub : Finset.Icc base (base + 4) ⊆ R.toFinset := by
      intro r hr
      rw [Finset.mem_Icc] at hr
      obtain ⟨rp, hrp, hrpr⟩ := hwitness r hr.1 hr.2
      rw [List.mem_toFinset]
      have := hactual rp hrp (by omega)
      rwa [hrpr] at this
    have hReq : R.toFinset = Finset.Icc base (base + 4) := by
      refine (Finset.eq_of_subset_of_card_le hRsub ?_).symm
      rw [hcardR, Nat.card_Icc]
      omega
    have hstraight := checkStraight_true_of_bounds R hR5 hndR (base + 4) base
      (by
        rw [← List.mem_toFinset, hReq, Finset.mem_Icc]
        omega)
      (by
        rw [← List.mem_toFinset, hReq, Finset.mem_Icc]
        omega)
      (fun x hx => by
        have hxI : x ∈ Finset.Icc base (base + 4) := by
          rw [← hReq, List.mem_toFinset]
          exact hx
        rw [Finset.mem_Icc] at hxI
        omega)
      (by omega)
    rw [hstraight] at hns
    simp at hns

/-- Under the high-card side conditions, the code window scan and the
specification window scan agree at every base: a qualifying window holds
exactly 4 candidates, so taking the first 4 keeps all of them. -/
theorem straightDrawAt_eq_spec (hand : List Card) (h5 : hand.length = 5)
    (hndR : (hand.map Prod.fst).Nodup)
    (hvalid : ∀ c ∈ hand, 2 ≤ c.1 ∧ c.1 ≤ 14)
    (hns : (checkStraight (hand.map Prod.fst)).1 = false) (base : Nat) :
    straightDrawAt (ranksWithPos hand) base = specWindowKeep (ranksWithPos hand) base := by
  have hposN := window_filter_pos_nodup hand base
  have hcand : collectCandidates base [] (ranksWithPos hand) =
      (ranksWithPos hand).filter (inWindow base) := by
    have h2 := collectCandidates_eq_filter base (ranksWithPos hand) [] (by simpa using hposN)
    simpa using h2
  unfold straightDrawAt specWindowKeep
  dsimp only
  rw [hcand]
  set C := (ranksWithPos hand).filter (inWindow base) with hC
  by_cases hq : 4 ≤ ((C.map Prod.fst).dedup).length
  · rw [if_pos hq, if_pos hq]
    have hle4 := window_candidates_le_four hand h5 hndR hvalid hns base
    rw [← hC] at hle4
    have hge4 : 4 ≤ C.length := by
      have h1 : ((C.map Prod.fst).dedup).length ≤ (C.map Prod.fst).length :=
        (List.dedup_sublist _).length_le
      rw [List.length_map] at h1
      omega
    have hlen4 : C.length = 4 := by omega
    have htake : C.take 4 = C := List.take_of_length_le (by omega)
    rw [htake]
    have hcondlen : ((C.map Prod.snd).dedup).length = 4 := by
      rw [List.Nodup.dedup hposN, List.length_map, hlen4]
    rw [if_pos hcondlen]
  · rw [if_neg hq, if_neg hq]

/-- Under the high-card side conditions, the code straight-draw search
returns exactly what the specification describes. -/
theorem findStraightDraw_eq_spec (hand : List Card) (h5 : hand.length = 5)
    (hndR : (hand.map Prod.fst).Nodup)
    (hvalid : ∀ c ∈ hand, 2 ≤ c.1 ∧ c.1 ≤ 14)
    (hns : (checkStraight (hand.map Prod.fst)).1 = false) :
    findStraightDraw hand = specStraightDraw hand := by
  unfold findStraightDraw specStraightDraw
  dsimp only
  exact findSome?_congr _ _ _
    (fun rp _ => straightDrawAt_eq_spec hand h5 hndR hvalid hns rp.1)

/-- The kept positions of a successful spec straight-draw: exactly 4
pairwise distinct positions of the 5 slots. -/
theorem specStraightDraw_keep_facts (hand : List Card) (h5 : hand.length = 5)
    (hndR : (hand.map Prod.fst).Nodup)
    (hvalid : ∀ c ∈ hand, 2 ≤ c.1 ∧ c.1 ≤ 14)
    (hns : (checkStraight (hand.map Prod.fst)).1 = false) (keep : List Nat)
    (hk : specStraightDraw hand = some keep) :
    keep.length = 4 ∧ keep.Nodup ∧ ∀ i ∈ keep, i < 5 := by
  unfold specStraightDraw at hk
  dsimp only at hk
  obtain ⟨rp, hrp, hsw⟩ := List.exists_of_findSome?_eq_some hk
  unfold specWindowKeep at hsw
  dsimp only at hsw
  split at hsw
  case isTrue hq =>
    rw [Option.some.injEq] at hsw
    subst hsw
    set C := (ranksWithPos hand).filter (inWindow rp.1) with hC
    have hposN : (C.map Prod.snd).Nodup := window_filter_pos_nodup hand rp.1
    have hded : (C.map Prod.snd).dedup = C.map Prod.snd := List.Nodup.dedup hposN
    have hle4 := window_candidates_le_four hand h5 hndR hvalid hns rp.1
    rw [← hC] at hle4
    have hge4 : 4 ≤ C.length := by
      have h1 : ((C.map Prod.fst).dedup).length ≤ (C.map Prod.fst).length :=
        (List.dedup_sublist _).length_le
      rw [List.length_map] at h1
      omega
    have hlen4 : C.length = 4 := by omega
    rw [hded]
    refine ⟨?_, hposN, ?_⟩
    · rw [List.length_map, hlen4]
    · intro i hi
      obtain ⟨rp2, hrp2, rfl⟩ := List.mem_map.mp hi
      have hfacts := ranksWithPos_mem hand (2, Suit.H) rp2 (List.mem_filter.mp hrp2).1
      rw [h5] at hfacts
      exact hfacts.1
  case isFalse => exact Option.noConfusion hsw

/-- With distinct ranks, different positions hold different ranks. -/
theorem rank_getD_inj (hand : List Card) (h5 : hand.length = 5)
    (hndR : (hand.map Prod.fst).Nodup) (p q : Nat) (hp : p < 5) (hq : q < 5)
    (hpq : p ≠ q) :
    (hand.getD p (2, Suit.H)).1 ≠ (hand.getD q (2, Suit.H)).1 := by
  intro heq
  apply hpq
  have hp2 : p < hand.length := by omega
  have hq2 : q < hand.length := by omega
  rw [List.getD_eq_getElem _ _ hp2, List.getD_eq_getElem _ _ hq2] at heq
  have hpm : p < (hand.map Prod.fst).length := by
    rw [List.length_map]
    exact hp2
  have hqm : q < (hand.map Prod.fst).length := by
    rw [List.length_map]
    exact hq2
  have hmapeq : (hand.map Prod.fst)[p] = (hand.map Prod.fst)[q] := by
    rw [List.getElem_map, List.getElem_map]
    exact heq
  exact (hndR.getElem_inj_iff).mp hmapeq

/-- When a suit is held exactly 4 times, the flush-draw scan discards
exactly the off-suit positions. -/
theorem flushDrawDiscards_of_count4 (hand : List Card) (h5 : hand.length = 5)
    (s : Suit) (hs4 : (hand.map Prod.snd).count s = 4) :
    flushDrawDiscards hand = idxWhere hand (fun c => c.2 ≠ s) := by
  have hmem : s ∈ (hand.map Prod.snd).dedup :=
    List.mem_dedup.mpr (List.count_pos_iff.mp (by omega))
  have hother : ∀ s2 ∈ (hand.map Prod.snd).dedup, s2 ≠ s →
      (if (hand.map Prod.snd).count s2 == 4 then
        some (idxWhere hand (fun c => c.2 ≠ s2)) else none) = none := by
    intro s2 _ hne
    have hlen : (hand.map Prod.snd).length = 5 := by
      rw [List.length_map, h5]
    have hcnt : (hand.map Prod.snd).count s2 ≠ 4 := by
      intro hc
      have hpair := count_pair_le (hand.map Prod.snd) s s2 (fun h => hne h.symm)
      omega
    simp [hcnt]
  unfold flushDrawDiscards
  rw [findSome?_eq_of_unique _ _ s hmem hother]
  have hcond : ((hand.map Prod.snd).count s == 4) = true := by
    rw [hs4]
    rfl
  rw [if_pos hcond]

/-- The off-suit position list of a 4-flush hand has exactly one entry. -/
theorem offsuit_length_one (hand : List Card) (h5 : hand.length = 5)
    (s : Suit) (hs4 : (hand.map Prod.snd).count s = 4) :
    (idxWhere hand (fun c => c.2 ≠ s)).length = 1 := by
  rw [idxWhere_length]
  have hcnt : List.countP (fun c : Card => c.2 == s) hand = 4 := by
    have h1 : (hand.map Prod.snd).count s =
        List.countP (fun x => x == s) (hand.map Prod.snd) :=
      List.count_eq_countP s (hand.map Prod.snd)
    rw [List.countP_map] at h1
    have h2 : ((fun x : Suit => x == s) ∘ Prod.snd) = (fun c : Card => c.2 == s) := rfl
    rw [h2] at h1
    omega
  have hsplit := List.length_eq_countP_add_countP (fun c : Card => c.2 == s) hand
  have hfn : (fun c : Card => decide (c.2 ≠ s)) =
      (fun c : Card => decide ¬((c.2 == s) = true)) := by
    funext c
    cases h : c.2 == s
    · simp at h
      simp [h]
    · simp at h
      simp [h]
  rw [hfn]
  omega

/-- The complement of 4 distinct kept positions among the 5 slots is a
single position. -/
theorem range5_filter_not_mem_length (keep : List Nat) (hnd : keep.Nodup)
    (hlen : keep.length = 4) (hmem : ∀ i ∈ keep, i < 5) :
    ((List.range 5).filter (fun i => !(keep.contains i))).length = 1 := by
  have hnd2 : ((List.range 5).filter (fun i => keep.contains i)).Nodup :=
    (List.filter_sublist _).nodup (List.nodup_range 5)
  have hms : ∀ x, x ∈ (List.range 5).filter (fun i => keep.contains i) ↔ x ∈ keep := by
    intro x
    rw [List.mem_filter, List.mem_range]
    constructor
    · exact fun h => contains_eq_true_iff.mp h.2
    · exact fun h => ⟨hmem x h, contains_eq_true_iff.mpr h⟩
  have hfin : ((List.range 5).filter (fun i => keep.contains i)).toFinset = keep.toFinset := by
    apply Finset.ext
    intro x
    rw [List.mem_toFinset, List.mem_toFinset]
    exact hms x
  have hlenpos : ((List.range 5).filter (fun i => keep.contains i)).length = 4 := by
    have h1 := List.toFinset_card_of_nodup hnd2
    have h2 := List.toFinset_card_of_nodup hnd
    rw [hfin, h2, hlen] at h1
    omega
  have hsplit := List.length_eq_countP_add_countP (fun i => keep.contains i) (List.range 5)
  rw [List.countP_eq_length_filter, List.countP_eq_length_filter] at hsplit
  have hfn : (fun i => !(keep.contains i)) =
      (fun i => decide ¬((keep.contains i) = true)) := by
    funext i
    cases h : keep.contains i <;> simp [h]
  rw [hfn]
  rw [List.length_range] at hsplit
  omega

/-- In the no-draw fallback, every discarded position holds a strictly
lower rank than every kept position. -/
theorem lowestThreeDiscards_minimal (hand : List Card) (h5 : hand.length = 5)
    (hndR : (hand.map Prod.fst).Nodup) :
    ∀ i ∈ lowestThreeDiscards hand, ∀ j, j < 5 → j ∉ lowestThreeDiscards hand →
      (hand.getD i (2, Suit.H)).1 < (hand.getD j (2, Suit.H)).1 := by
  unfold lowestThreeDiscards
  dsimp only
  set P := hand.enum.map (fun ic => (ic.1, ic.2.1)) with hP
  set L := List.insertionSort (fun x y : Nat × Nat => x.2 ≤ y.2) P with hL
  have hsorted : List.Sorted (fun x y : Nat × Nat => x.2 ≤ y.2) L :=
    List.sorted_insertionSort _ P
  have hperm : L.Perm P := List.perm_insertionSort _ P
  have hPmem : ∀ pr ∈ P, pr.1 < 5 ∧ pr.2 = (hand.getD pr.1 (2, Suit.H)).1 := by
    intro pr hpr
    obtain ⟨⟨ii, c⟩, hic, hiceq⟩ := List.mem_map.mp hpr
    obtain ⟨hlt, hc⟩ := List.mem_enum hic
    rw [← hiceq]
    dsimp only
    refine ⟨by omega, ?_⟩
    rw [List.getD_eq_getElem _ _ hlt, ← hc]
  intro i hi j hj hjn
  obtain ⟨pri, hpri, hprifst⟩ := List.mem_map.mp hi
  have hpriL : pri ∈ L := (List.take_sublist 3 L).subset hpri
  have hpriP : pri ∈ P := hperm.subset hpriL
  obtain ⟨hprilt, hprisnd⟩ := hPmem pri hpriP
  have hjP : ((j, (hand.getD j (2, Suit.H)).1) : Nat × Nat) ∈ P := by
    rw [hP]
    refine List.mem_map.mpr ⟨(j, hand.getD j (2, Suit.H)), ?_, rfl⟩
    rw [List.mem_enum_iff_getElem?]
    dsimp only
    rw [List.getD_eq_getElem _ _ (by omega : j < hand.length)]
    exact List.getElem?_eq_getElem _
  have hjL : ((j, (hand.getD j (2, Suit.H)).1) : Nat × Nat) ∈ L := hperm.mem_iff.mpr hjP
  have hjdrop : ((j, (hand.getD j (2, Suit.H)).1) : Nat × Nat) ∈ L.drop 3 := by
    have hta := List.take_append_drop 3 L
    have hjL2 : ((j, (hand.getD j (2, Suit.H)).1) : Nat × Nat) ∈ L.take 3 ++ L.drop 3 := by
      rw [hta]
      exact hjL
    rcases List.mem_append.mp hjL2 with hcase | hcase
    · exact absurd (List.mem_map.mpr ⟨_, hcase, rfl⟩) hjn
    · exact hcase
  have hrel := hsorted.rel_of_mem_take_of_mem_drop hpri hjdrop
  dsimp only at hrel
  have hij : i ≠ j := fun hc => hjn (hc ▸ hi)
  have hne := rank_getD_inj hand h5 hndR i j (hprifst ▸ hprilt) hj hij
  rw [hprifst] at hprisnd
  omega

/-- On a High Card hand the strategy reduces to the truncated high-card
branch. -/
theorem getCardsToDiscard_highcard (mode : String) (hand : List Card)
    (h5 : hand.length = 5) (t : List Nat) (nm : String)
    (he : evaluate hand = Except.ok (HIGH_CARD, t, nm)) :
    getCardsToDiscard mode hand =
      Except.ok ((highCardDiscards hand).take MAX_SWAP_PER_ROUND) := by
  have hev : evaluateCards hand = (HIGH_CARD, t, nm) :=
    (Except.ok.injEq _ _).mp ((evaluate_of_length hand h5).symm.trans he)
  have hth : 4 ≤ keepThreshold mode := by
    unfold keepThreshold
    split_ifs <;> simp [FULL_HOUSE, STRAIGHT, FOUR_OF_A_KIND]
  unfold getCardsToDiscard
  rw [evaluate_of_length hand h5, hev]
  dsimp only
  rw [if_neg (by simp only [HIGH_CARD]; omega)]
  rw [if_neg (by decide), if_neg (by decide), if_neg (by decide), if_neg (by decide),
    if_neg (by decide), if_neg (by decide), if_neg (by decide)]

/-- C3: on every valid 5-card High Card hand (5 distinct valid cards), for
every mode: with exactly 4 cards of one suit the single off-suit position
is discarded; otherwise, when the spec-side window scan finds a straight
draw, exactly the one position outside the 4 kept positions of the first
qualifying window is discarded; otherwise the 3 positions holding the
lowest ranks are discarded, keeping the 2 highest. -/
theorem highcard_discard_selection (mode : String) (hand : List Card)
    (h5 : hand.length = 5) (hnd : hand.Nodup)
    (hvalid : ∀ c ∈ hand, 2 ≤ c.1 ∧ c.1 ≤ 14)
    (t : List Nat) (nm : String)
    (he : evaluate hand = Except.ok (HIGH_CARD, t, nm)) :
    (∀ s : Suit, (hand.map Prod.snd).count s = 4 →
      getCardsToDiscard mode hand = Except.ok
        ((List.range 5).filter (fun j => (hand.getD j (2, Suit.H)).2 ≠ s)) ∧
      ((List.range 5).filter (fun j => (hand.getD j (2, Suit.H)).2 ≠ s)).length = 1) ∧
    ((∀ s : Suit, (hand.map Prod.snd).count s ≠ 4) →
      ∀ keep, specStraightDraw hand = some keep →
        keep.length = 4 ∧
        getCardsToDiscard mode hand = Except.ok
          ((List.range 5).filter (fun i => !(keep.contains i))) ∧
        ((List.range 5).filter (fun i => !(keep.contains i))).length = 1) ∧
    ((∀ s : Suit, (hand.map Prod.snd).count s ≠ 4) →
      specStraightDraw hand = none →
      ∃ l, getCardsToDiscard mode hand = Except.ok l ∧ l.length = 3 ∧
        (∀ i ∈ l, i < 5) ∧
        ∀ i ∈ l, ∀ j, j < 5 → j ∉ l →
          (hand.getD i (2, Suit.H)).1 < (hand.getD j (2, Suit.H)).1) := by
  have hev : evaluateCards hand = (HIGH_CARD, t, nm) :=
    (Except.ok.injEq _ _).mp ((evaluate_of_length hand h5).symm.trans he)
  obtain ⟨hndR, hns⟩ := highcard_ranks_facts hand h5 hnd t nm hev
  have hred := getCardsToDiscard_highcard mode hand h5 t nm he
  refine ⟨?_, ?_, ?_⟩
  · intro s hs4
    have hfd := flushDrawDiscards_of_count4 hand h5 s hs4
    have hlen1 := offsuit_length_one hand h5 s hs4
    have hne : idxWhere hand (fun c => c.2 ≠ s) ≠ [] := by
      intro hc
      rw [hc] at hlen1
      simp at hlen1
    have hie : (idxWhere hand (fun c => c.2 ≠ s)).isEmpty = false := by
      cases hcc : (idxWhere hand (fun c => c.2 ≠ s)).isEmpty
      · rfl
      · exact absurd (List.isEmpty_iff.mp hcc) hne
    have hhc : highCardDiscards hand = idxWhere hand (fun c => c.2 ≠ s) := by
      unfold highCardDiscards
      rw [hfd]
      dsimp only
      rw [hie, if_neg Bool.false_ne_true, hie, if_neg Bool.false_ne_true]
    have hidr := idxWhere_eq_range_filter hand (fun c => c.2 ≠ s) (2, Suit.H)
    rw [h5] at hidr
    constructor
    · rw [hred, hhc]
      rw [List.take_of_length_le (by rw [hlen1]; decide)]
      rw [hidr]
    · rw [← hidr]
      exact hlen1
  · intro hnf keep hkeep
    obtain ⟨hklen, hknd, hkmem⟩ :=
      specStraightDraw_keep_facts hand h5 hndR hvalid hns keep hkeep
    have hfd : flushDrawDiscards hand = [] := by
      rcases flushDrawDiscards_cases hand with h | ⟨s, hs4, _⟩
      · exact h
      · exact absurd hs4 (hnf s)
    have hfind : findStraightDraw hand = some keep := by
      rw [findStraightDraw_eq_spec hand h5 hndR hvalid hns]
      exact hkeep
    have hflen := range5_filter_not_mem_length keep hknd hklen hkmem
    have hfne : (List.range 5).filter (fun i => !(keep.contains i)) ≠ [] := by
      intro hc
      rw [hc] at hflen
      simp at hflen
    have hfie : ((List.range 5).filter (fun i => !(keep.contains i))).isEmpty = false := by
      cases hcc : ((List.range 5).filter (fun i => !(keep.contains i))).isEmpty
      · rfl
      · exact absurd (List.isEmpty_iff.mp hcc) hfne
    have hhc : highCardDiscards hand =
        (List.range 5).filter (fun i => !(keep.contains i)) := by
      unfold highCardDiscards
      rw [hfd, hfind]
      dsimp only
      simp only [List.isEmpty_nil, eq_self_iff_true, if_true]
      rw [hfie, if_neg Bool.false_ne_true]
    refine ⟨hklen, ?_, hflen⟩
    rw [hred, hhc]
    rw [List.take_of_length_le (by rw [hflen]; decide)]
  · intro hnf hnone
    have hfd : flushDrawDiscards hand = [] := by
      rcases flushDrawDiscards_cases hand with h | ⟨s, hs4, _⟩
      · exact h
      · exact absurd hs4 (hnf s)
    have hfind : findStraightDraw hand = none := by
      rw [findStraightDraw_eq_spec hand h5 hndR hvalid hns]
      exact hnone
    have hgood := lowestThreeDiscards_good hand h5
    have hhc : highCardDiscards hand = lowestThreeDiscards hand := by
      unfold highCardDiscards
      rw [hfd, hfind]
      dsimp only
      simp only [List.isEmpty_nil, eq_self_iff_true, if_true]
    refine ⟨lowestThreeDiscards hand, ?_, hgood.1, hgood.2.2, ?_⟩
    · rw [hred, hhc]
      rw [List.take_of_length_le (by rw [hgood.1]; decide)]
    · exact lowestThreeDiscards_minimal hand h5 hndR

theorem highcard_discard_selection_witness :
    getCardsToDiscard "standard"
      [(2, Suit.H), (3, Suit.D), (4, Suit.C), (5, Suit.S), (13, Suit.H)] =
      Except.ok ((List.range 5).filter
        (fun i => !(([0, 1, 2, 3] : List Nat).contains i))) ∧
    ((List.range 5).filter (fun i => !(([0, 1, 2, 3] : List Nat).contains i))).length = 1 :=
  ((highcard_discard_selection "standard"
      [(2, Suit.H), (3, Suit.D), (4, Suit.C), (5, Suit.S), (13, Suit.H)]
      (by decide) (by decide) (by intro c hc; fin_cases hc <;> simp)
      [13, 5, 4, 3, 2] "High Card"
      (by decide)).2.1 (by intro s; cases s <;> decide) [0, 1, 2, 3] (by decide)).2
